import Mathlib

/-!
Verification of the helper behaviors of `nomad/config/models.py`:
the include/exclude option filters (`OptionsBase.filter`, `Options.filtered_keys`,
`Options.filtered_values`, `Options.filtered_items`), the settings merge
(`NomadSettings.customize`), the glob filter variant (`OptionsGlob`) and the
`WidgetScatterPlot.backwards_compatibility` input normalizer.

Pydantic `Optional[List[str]]` fields are embedded as `Option (List String)`;
Python truthiness of such a field (`None` and `[]` are falsy) is `listTruthy`.
-/

set_option autoImplicit false

/-- Python truthiness of an `Optional[List[str]]` value: `None` and `[]` are falsy. -/
def listTruthy : Option (List String) → Bool
  | none => false
  | some l => !l.isEmpty

/-- `value in l` for an `Optional[List[str]]`.  The source only evaluates the
membership test when the optional list is truthy, so evaluating it to `false`
on `None` does not change any result. -/
def memOpt (v : String) : Option (List String) → Bool
  | none => false
  | some l => l.contains v

/-- `OptionsBase` (models.py): include/exclude lists for exact-match filtering. -/
structure OptionsBase where
  «include» : Option (List String)
  exclude : Option (List String)

/-- `OptionsBase.filter` (models.py lines 104-109):
`included = not self.include or value in self.include or '*' in self.include`,
`excluded = self.exclude and (value in self.exclude or '*' in self.exclude)`,
returns `included and not excluded`. -/
def OptionsBase.filter (o : OptionsBase) (value : String) : Bool :=
  let included := !listTruthy o.«include» || memOpt value o.«include» || memOpt "*" o.«include»
  let excluded := listTruthy o.exclude && (memOpt value o.exclude || memOpt "*" o.exclude)
  included && !excluded

/-- The spec's "included" clause, following its words: include is empty or
absent, or the value is an element of include, or `*` is an element of include. -/
def specIncluded (o : OptionsBase) (v : String) : Prop :=
  match o.«include» with
  | none => True
  | some l => l = [] ∨ v ∈ l ∨ "*" ∈ l

/-- The spec's "excluded" clause, following its words: exclude is non-empty
and the value or `*` is an element of exclude. -/
def specExcluded (o : OptionsBase) (v : String) : Prop :=
  match o.exclude with
  | none => False
  | some l => l ≠ [] ∧ (v ∈ l ∨ "*" ∈ l)

/-- `Options` (models.py): an include/exclude spec over a mapping of named
options.  The mapping is embedded as an association list in insertion order. -/
structure Options (α : Type) where
  «include» : Option (List String)
  exclude : Option (List String)
  options : List (String × α)

/-- Python dict lookup `d[k]`/`d.get(k)` on an association list. -/
def dictGet {α : Type} (l : List (String × α)) (k : String) : Option α :=
  (l.find? (fun p => p.1 == k)).map (·.2)

/-- `Options.filtered_keys` (models.py lines 138-150). -/
def Options.filtered_keys {α : Type} (o : Options α) : List String :=
  let included :=
    if o.«include».isNone || memOpt "*" o.«include» then o.options.map Prod.fst
    else o.«include».getD []
  if o.exclude.isSome && memOpt "*" o.exclude then []
  else included.filter (fun key => !(o.exclude.getD []).contains key)

/-- `Options.filtered_values` (models.py lines 152-158):
`[self.options[key] for key in self.filtered_keys() if key in self.options]`. -/
def Options.filtered_values {α : Type} (o : Options α) : List α :=
  o.filtered_keys.filterMap (fun key => dictGet o.options key)

/-- `Options.filtered_items` (models.py lines 160-168):
`[(key, self.options[key]) for key in self.filtered_keys() if key in self.options]`. -/
def Options.filtered_items {α : Type} (o : Options α) : List (String × α) :=
  o.filtered_keys.filterMap (fun key => (dictGet o.options key).map (fun v => (key, v)))

/-- The algorithm claimed for `filtered_keys` by the spec sentence of C5, by its
words and without the `exclude` wildcard short-circuit: start from `include`
when it is given and has no `*`, else from all keys of `options`, then remove
the keys present in `exclude`. -/
def filteredKeysSpec {α : Type} (o : Options α) : List String :=
  let start :=
    match o.«include» with
    | none => o.options.map Prod.fst
    | some l => if l.contains "*" then o.options.map Prod.fst else l
  start.filter (fun k => !(o.exclude.getD []).contains k)

/-! ### The glob filter variant -/

/-- One alternative of a shell glob character class: `a-b` ranges and single
characters, tried in order (`[a-]` keeps the trailing `-` literal). -/
def matchClass (c : Char) : List Char → Bool
  | a :: '-' :: b :: rest => (decide (a ≤ c) && decide (c ≤ b)) || matchClass c rest
  | a :: rest => (a == c) || matchClass c rest
  | [] => false

/-- Splits a glob pattern right after a `[` into the class body (up to the
first `]`) and the remaining pattern; `none` when the class is unterminated. -/
def splitClass : List Char → Option (List Char × List Char)
  | [] => none
  | ']' :: rest => some ([], rest)
  | c :: rest => (splitClass rest).map (fun pr => (c :: pr.1, pr.2))

/-- Shell-style glob matching on character lists, with fuel (one unit per
pattern token, so `pattern.length + 1` always suffices): `*` matches any run
of characters, `?` exactly one, `[...]` a character class with `!` negation. -/
def globMatchAux : Nat → List Char → List Char → Bool
  | 0, _, _ => false
  | _ + 1, [], s => s.isEmpty
  | fuel + 1, '*' :: ps, s => s.tails.any (fun t => globMatchAux fuel ps t)
  | fuel + 1, '?' :: ps, _ :: s => globMatchAux fuel ps s
  | _ + 1, '?' :: _, [] => false
  | fuel + 1, '[' :: ps, c :: s =>
    match splitClass ps with
    | some (cls, rest) =>
      (match cls with
       | '!' :: body => !matchClass c body
       | body => matchClass c body) && globMatchAux fuel rest s
    | none => ('[' == c) && globMatchAux fuel ps s
  | _ + 1, '[' :: _, [] => false
  | fuel + 1, p :: ps, c :: s => (p == c) && globMatchAux fuel ps s
  | _ + 1, _ :: _, [] => false

/-- Modelled from the spec: standard shell-style glob matching of a candidate
value against one pattern (`*` matches any run of characters, `?` matches one
character, character classes in brackets).  The repository's files declare the
glob-capable `OptionsGlob`/`Filters` settings models but contain no filter
method for them; this matcher embodies the spec's glob membership test. -/
def globMatch (pat value : String) : Bool :=
  globMatchAux (pat.length + 1) pat.toList value.toList

/-- `OptionsGlob` (models.py lines 112-126): include/exclude lists that
support glob/wildcard syntax.  `Filters` (models.py lines 1271-1288) redeclares
exactly these two fields. -/
structure OptionsGlob where
  «include» : Option (List String)
  exclude : Option (List String)

/-- "value matches at least one pattern in the list", over an optional list. -/
def globAnyOpt (v : String) : Option (List String) → Bool
  | none => false
  | some l => l.any (fun p => globMatch p v)

/-- Modelled from the spec: the glob filter variant, with the exact-match
variant's precedence rules and the membership tests replaced by "value matches
at least one pattern in the list" (the `'*' in list` test of the exact variant
is subsumed: the pattern `*` matches everything).  The repository's files do
not define this method for `OptionsGlob`/`Filters`. -/
def OptionsGlob.filter (o : OptionsGlob) (value : String) : Bool :=
  let included := !listTruthy o.«include» || globAnyOpt value o.«include»
  let excluded := listTruthy o.exclude && globAnyOpt value o.exclude
  included && !excluded

/-- The spec's "included" clause for the glob variant: include is empty or
absent, or the value matches at least one include pattern. -/
def specGlobIncluded (o : OptionsGlob) (v : String) : Prop :=
  match o.«include» with
  | none => True
  | some l => l = [] ∨ ∃ p ∈ l, globMatch p v = true

/-- The spec's "excluded" clause for the glob variant: exclude is non-empty
and the value matches at least one exclude pattern. -/
def specGlobExcluded (o : OptionsGlob) (v : String) : Prop :=
  match o.exclude with
  | none => False
  | some l => l ≠ [] ∧ ∃ p ∈ l, globMatch p v = true

/-! ### The scatter plot widget's backwards-compatibility normalizer -/

/-- The values appearing in the raw input mapping handed to a pydantic
root validator: `null` (Python `None`), strings, other scalars (opaque),
and nested mappings. -/
inductive JVal where
  | null : JVal
  | str : String → JVal
  | num : Int → JVal
  | obj : List (String × JVal) → JVal

/-- Python dict assignment `d[k] = v`: overwrites in place when the key is
present (keeping insertion order), appends at the end otherwise. -/
def dictSet {α : Type} (l : List (String × α)) (k : String) (v : α) : List (String × α) :=
  if l.any (fun p => p.1 == k) then l.map (fun p => if p.1 == k then (p.1, v) else p)
  else l ++ [(k, v)]

/-- Python dict deletion `del d[k]`. -/
def dictDel {α : Type} (l : List (String × α)) (k : String) : List (String × α) :=
  l.filter (fun p => !(p.1 == k))

/-- First statement group of `backwards_compatibility`:
`color = values.get('color'); if color is not None:
values['markers'] = {'color': {'quantity': color}}; del values['color']`. -/
def bcColorStep (values : List (String × JVal)) : List (String × JVal) :=
  match dictGet values "color" with
  | none => values
  | some JVal.null => values
  | some c => dictDel (dictSet values "markers" (.obj [("color", .obj [("quantity", c)])])) "color"

/-- Axis statement group of `backwards_compatibility` (used for `x` and `y`):
`x = values.get('x'); if isinstance(x, str): values['x'] = {'quantity': x}`. -/
def bcAxisStep (key : String) (values : List (String × JVal)) : List (String × JVal) :=
  match dictGet values key with
  | some (JVal.str s) => dictSet values key (.obj [("quantity", .str s)])
  | _ => values

/-- `WidgetScatterPlot.backwards_compatibility` (models.py lines 1455-1468):
if `color` is present and not `None`, set
`values['markers'] = {'color': {'quantity': color}}` and delete `color`;
then rewrite a plain string `x` (and `y`) into `{'quantity': <string>}`. -/
def WidgetScatterPlot.backwards_compatibility (values : List (String × JVal)) :
    List (String × JVal) :=
  bcAxisStep "y" (bcAxisStep "x" (bcColorStep values))

/-! ### A heap model for `NomadSettings.customize`

`customize` first takes a deep copy of `self` (`rv = self.copy(deep=True)`)
and then mutates `rv` by `setattr`.  To state what "deep copy", "mutating the
result does not affect the base" and "the base is not mutated" mean, settings
objects live in an explicit heap: a list of objects addressed by index, field
values being either opaque primitives or references to other objects. -/

/-- A runtime value held in a settings object's field: an opaque primitive or
a reference to another allocated object (a nested settings model). -/
inductive Val where
  | prim : Int → Val
  | ref : Nat → Val
deriving DecidableEq

/-- A settings object: its declared fields with their current values, in
declaration order.  Pydantic fixes the field set at class definition time. -/
structure Obj where
  fields : List (String × Val)
deriving DecidableEq

/-- The program state: every allocated settings object, addressed by its
index; allocation appends. -/
abbrev Heap := List Obj

/-- The deep value of an object: the tree obtained by dereferencing (what a
deep copy reads and reproduces). -/
inductive DTree where
  | prim : Int → DTree
  | node : List (String × DTree) → DTree

/-- Sequences the per-field results of one object: all must succeed. -/
def collectFields : List (String × Option DTree) → Option (List (String × DTree))
  | [] => some []
  | (_, none) :: _ => none
  | (f, some t) :: rest => (collectFields rest).map (fun ts => (f, t) :: ts)

/-- The deep value of a field value, following references; `fuel` bounds the
nesting depth.  Configuration objects form finite acyclic graphs, so some fuel
always suffices; the theorems below quantify over it. -/
def valOfVal : Nat → Heap → Val → Option DTree
  | _, _, .prim n => some (.prim n)
  | 0, _, .ref _ => none
  | fuel + 1, h, .ref a =>
    (h[a]?).bind fun o =>
      (collectFields (o.fields.map (fun fv => (fv.1, valOfVal fuel h fv.2)))).map DTree.node

/-- The deep values of a field list. -/
def valOfFields (fuel : Nat) (h : Heap) (fs : List (String × Val)) :
    Option (List (String × DTree)) :=
  collectFields (fs.map (fun fv => (fv.1, valOfVal fuel h fv.2)))

/-- The deep value of the object at address `a`. -/
def valOfObj (fuel : Nat) (h : Heap) (a : Nat) : Option (List (String × DTree)) :=
  (h[a]?).bind fun o => valOfFields fuel h o.fields

/-- Allocates fresh objects mirroring the trees of a field list, threading the
heap left to right through `build` (the per-tree builder). -/
def buildFieldsWith (build : Heap → DTree → Option (Heap × Val)) :
    Heap → List (String × DTree) → Option (Heap × List (String × Val))
  | h, [] => some (h, [])
  | h, (f, t) :: rest =>
    (build h t).bind fun hv =>
      (buildFieldsWith build hv.1 rest).map fun hr => (hr.1, (f, hv.2) :: hr.2)

/-- Allocates a fresh copy of one deep value: a primitive is copied directly;
a node first allocates copies of its children, then a fresh object holding
them.  `fuel` bounds the depth exactly as in `valOfVal`. -/
def buildVal : Nat → Heap → DTree → Option (Heap × Val)
  | _, h, .prim n => some (h, .prim n)
  | 0, _, .node _ => none
  | fuel + 1, h, .node fs =>
    (buildFieldsWith (fun h' t => buildVal fuel h' t) h fs).map fun hfvs =>
      (hfvs.1 ++ [Obj.mk hfvs.2], Val.ref hfvs.1.length)

/-- Allocates fresh copies of a deep field list. -/
def buildFields (fuel : Nat) (h : Heap) (fs : List (String × DTree)) :
    Option (Heap × List (String × Val)) :=
  buildFieldsWith (fun h' t => buildVal fuel h' t) h fs

/-- `getattr(o, f)`. -/
def getField (o : Obj) (f : String) : Option Val :=
  (o.fields.find? (fun fv => fv.1 == f)).map (·.2)

/-- Does `f` name a declared field of `o`? -/
def hasField (o : Obj) (f : String) : Bool :=
  o.fields.any (fun fv => fv.1 == f)

/-- Overwrites a declared field's value, keeping declaration order. -/
def setField (o : Obj) (f : String) (v : Val) : Obj :=
  ⟨o.fields.map (fun fv => if fv.1 == f then (fv.1, v) else fv)⟩

/-- `setattr(o, f, v)` on a pydantic model whose `extra` is not `allow`:
raises (here: `none`) when `f` is not a declared field. -/
def setattr (o : Obj) (f : String) (v : Val) : Option Obj :=
  if hasField o f then some (setField o f v) else none

/-- The error raised by `customize`:
`AssertionError(f'Invalid setting: {field_name}')` for a settings-object
override, `AssertionError(f'Invalid setting: ({key}: {value})')` for a
mapping override. -/
inductive CfgError where
  | invalidSettingField : String → CfgError
  | invalidSettingKV : String → Val → CfgError
deriving DecidableEq

/-- The `custom_settings` argument: either another settings model (its
declared fields with their values, as enumerated by `__fields__`) or a plain
mapping whose values may be `None`. -/
inductive Override where
  | node : List (String × Val) → Override
  | dict : List (String × Option Val) → Override
deriving DecidableEq

/-- Python truthiness of `custom_settings`: a pydantic model is always truthy,
a dict is truthy iff non-empty. -/
def truthyOverride : Override → Bool
  | .node _ => true
  | .dict es => !es.isEmpty

/-- The model-override loop of `customize`:
`for field_name in custom_settings.__fields__.keys(): try: setattr(rv,
field_name, getattr(custom_settings, field_name)) except Exception: raise
AssertionError(f'Invalid setting: {field_name}')`. -/
def applyNode (o : Obj) : List (String × Val) → Except CfgError Obj
  | [] => .ok o
  | (f, v) :: rest =>
    match setattr o f v with
    | some o' => applyNode o' rest
    | none => .error (.invalidSettingField f)

/-- The mapping-override loop of `customize`:
`for key, value in custom_settings.items(): if value is None: continue;
try: setattr(rv, key, value) except Exception: raise
AssertionError(f'Invalid setting: ({key}: {value})')`. -/
def applyDict (o : Obj) : List (String × Option Val) → Except CfgError Obj
  | [] => .ok o
  | (_, none) :: rest => applyDict o rest
  | (f, some v) :: rest =>
    match setattr o f v with
    | some o' => applyDict o' rest
    | none => .error (.invalidSettingKV f v)

/-- Dispatch on the runtime type of `custom_settings`. -/
def applyOverride (o : Obj) : Override → Except CfgError Obj
  | .node fs => applyNode o fs
  | .dict es => applyDict o es

/-- `NomadSettings.customize` (models.py lines 39-68) over the heap model:
`rv = self.copy(deep=True)` reads the deep value of the object at `a` and
allocates a fresh isomorphic copy (children first, then the root); when
`custom_settings` is truthy the overrides are applied to the fresh root by
`setattr`, failing with `Invalid setting` on an unknown field name; the root
(updated or not) is allocated last and its address returned.  The result is
`none` only when `fuel` is smaller than the object's nesting depth. -/
def NomadSettings.customize (fuel : Nat) (h : Heap) (a : Nat) (cs : Override) :
    Option (Except CfgError (Heap × Nat)) :=
  (valOfObj fuel h a).bind fun tfs =>
  (buildFields fuel h tfs).map fun hfvs =>
    let h1 := hfvs.1
    let ro : Obj := ⟨hfvs.2⟩
    if truthyOverride cs then
      match applyOverride ro cs with
      | .ok ro2 => .ok (h1 ++ [ro2], h1.length)
      | .error e => .error e
    else .ok (h1 ++ [ro], h1.length)

/-- The declared field names of the object at `a`. -/
def topNames (h : Heap) (a : Nat) : List String :=
  ((h[a]?).map (fun o => o.fields.map Prod.fst)).getD []

/-- The object at `r` (the node a caller receives). -/
def objAtD (h : Heap) (r : Nat) : Obj := (h[r]?).getD ⟨[]⟩

/-- `x` is reachable from `r`: the object identities a caller holding the node
at `r` can reach and mutate. -/
inductive Reach (h : Heap) (r : Nat) : Nat → Prop where
  | refl : Reach h r r
  | step {b c : Nat} {o : Obj} {f : String} : Reach h r b → h[b]? = some o →
      (f, Val.ref c) ∈ o.fields → Reach h r c

/-- Mutation of the object at `x` (replacing it wholesale, so the independence
theorem covers any field assignment on it). -/
def writeObj (h : Heap) (x : Nat) (o : Obj) : Heap := h.set x o

/-- A field value's references stay below `m`. -/
def valBelow (m : Nat) : Val → Bool
  | .prim _ => true
  | .ref a => decide (a < m)

/-- Every reference in the heap points at an allocated object (true of every
real pydantic object graph). -/
def Closed (h : Heap) : Prop :=
  ∀ o ∈ h, ∀ fv ∈ o.fields, valBelow h.length fv.2 = true

instance closedDecidable (h : Heap) : Decidable (Closed h) := by
  unfold Closed; infer_instance

/-- References of objects below `m` stay below `m` (the form of `Closed` the
agreement lemma tracks). -/
def closedBelow (m : Nat) (h : Heap) : Prop :=
  ∀ i, i < m → ∀ o, h[i]? = some o → ∀ fv ∈ o.fields, valBelow m fv.2 = true

/-- A value's reference (if any) lies in the address window `[lo, hi)`. -/
def valIn (lo hi : Nat) : Val → Prop
  | .prim _ => True
  | .ref a => lo ≤ a ∧ a < hi

/-- Objects allocated at or above `lo` only reference addresses in
`[lo, hi)`: the freshly built copy is self-contained. -/
def newRegionOK (lo : Nat) (h2 : Heap) : Prop :=
  ∀ i o, lo ≤ i → h2[i]? = some o → ∀ fv ∈ o.fields, valIn lo h2.length fv.2

/-! ### Helper lemmas about the filtered queries -/

theorem filtered_items_map_fst {α : Type} (keys : List String) (opts : List (String × α)) :
    (keys.filterMap (fun k => (dictGet opts k).map (fun v => (k, v)))).map Prod.fst
      = keys.filter (fun k => (dictGet opts k).isSome) := by
  induction keys with
  | nil => rfl
  | cons k rest ih => cases h : dictGet opts k <;> simp [h, ih]

theorem filtered_values_length {α : Type} (keys : List String) (opts : List (String × α)) :
    (keys.filterMap (fun k => dictGet opts k)).length
      = keys.length - (keys.filter (fun k => (dictGet opts k).isNone)).length := by
  induction keys with
  | nil => rfl
  | cons k rest ih =>
    have hle := List.length_filter_le (fun k => (dictGet opts k).isNone) rest
    cases h : dictGet opts k <;> simp [h, ih] <;> omega

theorem filtered_values_eq_items_snd {α : Type} (keys : List String) (opts : List (String × α)) :
    keys.filterMap (fun k => dictGet opts k)
      = (keys.filterMap (fun k => (dictGet opts k).map (fun v => (k, v)))).map Prod.snd := by
  induction keys with
  | nil => rfl
  | cons k rest ih => cases h : dictGet opts k <;> simp [h, ih]

/-! ### Claims about the exact-match filter and the keyed option queries -/

/-- C1: `OptionsBase.filter` returns true iff (include is empty or absent, or
the value or `*` is an element of include) and not (exclude is non-empty and
the value or `*` is an element of exclude); in particular an excluded value is
always rejected, whatever include says. -/
theorem C1_filter_included_not_excluded :
    ∀ (o : OptionsBase) (v : String),
      (o.filter v = true ↔ specIncluded o v ∧ ¬ specExcluded o v)
      ∧ (specExcluded o v → o.filter v = false) := by
  intro o v
  obtain ⟨inc, exc⟩ := o
  have key : OptionsBase.filter ⟨inc, exc⟩ v = true
      ↔ specIncluded ⟨inc, exc⟩ v ∧ ¬ specExcluded ⟨inc, exc⟩ v := by
    cases inc <;> cases exc <;>
      simp [OptionsBase.filter, specIncluded, specExcluded, listTruthy, memOpt] <;>
      tauto
  refine ⟨key, fun hexc => ?_⟩
  rcases Bool.eq_false_or_eq_true (OptionsBase.filter ⟨inc, exc⟩ v) with h | h
  · exact absurd hexc (key.mp h).2
  · exact h

/-- C5 (amended): provided `exclude` does not contain `*`, `filtered_keys`
starts from `include` when it is given without `*` and from all option keys
otherwise, then removes the keys present in `exclude`, keeping the order of
the starting list; and with `include` and `exclude` both absent it returns all
option keys in insertion order.  (Without the proviso the claim fails on the
`exclude` wildcard short-circuit, see the counterexample.) -/
theorem C5_filtered_keys_algorithm :
    ∀ (α : Type) (o : Options α),
      (memOpt "*" o.exclude = false → o.filtered_keys = filteredKeysSpec o)
      ∧ (o.«include» = none → o.exclude = none → o.filtered_keys = o.options.map Prod.fst) := by
  intro α o
  obtain ⟨inc, exc, opts⟩ := o
  constructor
  · intro h
    cases inc with
    | none =>
      cases exc with
      | none => simp [Options.filtered_keys, filteredKeysSpec, memOpt]
      | some e =>
        simp only [memOpt] at h
        have h' : "*" ∉ e := by simpa using h
        simp [Options.filtered_keys, filteredKeysSpec, memOpt, h']
    | some l =>
      cases exc with
      | none =>
        by_cases hc : l.contains "*" = true <;>
          simp [Options.filtered_keys, filteredKeysSpec, memOpt, hc]
      | some e =>
        simp only [memOpt] at h
        have h' : "*" ∉ e := by simpa using h
        by_cases hc : l.contains "*" = true <;>
          simp [Options.filtered_keys, filteredKeysSpec, memOpt, hc, h']
  · rintro rfl rfl
    simp [Options.filtered_keys, memOpt]

/-- C5 counterexample: with `include=['a']`, `exclude=['*']` and no options,
the claimed algorithm (start from include, drop keys in exclude) would return
`['a']`, but `filtered_keys` returns `[]` because a `*` in `exclude` discards
everything before the per-key removal happens. -/
theorem C5_counterexample_exclude_wildcard :
    Options.filtered_keys (⟨some ["a"], some ["*"], []⟩ : Options Nat) = []
    ∧ filteredKeysSpec (⟨some ["a"], some ["*"], []⟩ : Options Nat) = ["a"]
    ∧ Options.filtered_keys (⟨some ["a"], some ["*"], []⟩ : Options Nat)
        ≠ filteredKeysSpec (⟨some ["a"], some ["*"], []⟩ : Options Nat) := by
  refine ⟨by decide, by decide, by decide⟩

/-- C5 witness: a concrete instance for the amended claim, with
`options={'a':1,'b':2,'c':3}`, `include=['a','c']`, `exclude=['c']`. -/
theorem C5_filtered_keys_algorithm_witness :
    Options.filtered_keys (⟨some ["a", "c"], some ["c"], [("a", 1), ("b", 2), ("c", 3)]⟩ : Options Nat)
        = filteredKeysSpec (⟨some ["a", "c"], some ["c"], [("a", 1), ("b", 2), ("c", 3)]⟩ : Options Nat)
    ∧ Options.filtered_keys (⟨none, none, [("a", 1), ("b", 2), ("c", 3)]⟩ : Options Nat)
        = [("a", 1), ("b", 2), ("c", 3)].map Prod.fst := by
  exact ⟨(C5_filtered_keys_algorithm Nat _).1 (by decide),
    (C5_filtered_keys_algorithm Nat _).2 rfl rfl⟩

/-- C6: whenever `exclude` contains `*`, `filtered_keys` returns the empty
list, regardless of `include` and `options`. -/
theorem C6_exclude_wildcard_empty :
    ∀ (α : Type) (o : Options α), memOpt "*" o.exclude = true → o.filtered_keys = [] := by
  intro α o h
  obtain ⟨inc, exc, opts⟩ := o
  cases exc with
  | none => simp [memOpt] at h
  | some e =>
    simp only [memOpt] at h
    have h' : "*" ∈ e := by simpa using h
    simp [Options.filtered_keys, memOpt, h']

theorem C6_exclude_wildcard_empty_witness :
    Options.filtered_keys (⟨some ["a", "*"], some ["b", "*"], [("a", 1), ("b", 2)]⟩ : Options Nat)
      = [] :=
  C6_exclude_wildcard_empty Nat _ (by decide)

/-- C7 (amended): a dangling include entry never causes an error: it is always
omitted from `filtered_items` (and `filtered_values` is exactly the values of
`filtered_items`), and it appears in `filtered_keys` provided `include` does
not contain `*` and the entry is matched by neither `exclude` nor a `*` in
`exclude`.  (Without that proviso the claim fails, see the counterexample:
an excluded dangling name does not appear in `filtered_keys`.) -/
theorem C7_dangling_include_names :
    ∀ (α : Type) (o : Options α) (k : String),
      (k ∈ o.«include».getD [] → memOpt "*" o.«include» = false →
        memOpt k o.exclude = false → memOpt "*" o.exclude = false → k ∈ o.filtered_keys)
      ∧ (dictGet o.options k = none → ∀ v : α, (k, v) ∉ o.filtered_items)
      ∧ o.filtered_values = o.filtered_items.map Prod.snd := by
  intro α o k
  obtain ⟨inc, exc, opts⟩ := o
  refine ⟨?_, ?_, ?_⟩
  · intro hk hinc hexck hexcs
    cases inc with
    | none => simp at hk
    | some l =>
      simp only [Option.getD_some] at hk
      simp only [memOpt] at hinc
      have hinc' : "*" ∉ l := by simpa using hinc
      cases exc with
      | none => simp [Options.filtered_keys, memOpt, hinc, hinc', hk]
      | some e =>
        simp only [memOpt] at hexck hexcs
        have h1 : "*" ∉ e := by simpa using hexcs
        have h2 : k ∉ e := by simpa using hexck
        simp [Options.filtered_keys, memOpt, hinc, hinc', hk, h1, h2]
  · intro hnone v
    simp only [Options.filtered_items, List.mem_filterMap]
    rintro ⟨a, -, ha⟩
    cases h : dictGet opts a with
    | none => rw [h] at ha; simp at ha
    | some w =>
      rw [h] at ha
      simp only [Option.map_some', Option.some.injEq, Prod.mk.injEq] at ha
      rw [← ha.1, h] at hnone
      simp at hnone
  · exact filtered_values_eq_items_snd _ _

/-- C7 counterexample: with `options={'a':1}`, `include=['z']`, `exclude=['z']`,
the dangling include entry `'z'` does not appear in `filtered_keys` (the claim
asserts every dangling include entry appears there). -/
theorem C7_counterexample_excluded_dangling :
    "z" ∈ (["z"] : List String)
    ∧ dictGet (([("a", 1)]) : List (String × Nat)) "z" = none
    ∧ "z" ∉ Options.filtered_keys (⟨some ["z"], some ["z"], [("a", 1)]⟩ : Options Nat) := by
  refine ⟨by decide, by decide, by decide⟩

/-- C7 witness: the spec's concrete scenario `options={'a':1}`, `include=['z']`
(dangling, not excluded): `filtered_keys() == ['z']` and
`filtered_values() == []`. -/
theorem C7_dangling_include_names_witness :
    "z" ∈ Options.filtered_keys (⟨some ["z"], none, [("a", 1)]⟩ : Options Nat)
    ∧ (("z", 1) ∉ Options.filtered_items (⟨some ["z"], none, [("a", 1)]⟩ : Options Nat))
    ∧ Options.filtered_values (⟨some ["z"], none, [("a", 1)]⟩ : Options Nat)
        = (Options.filtered_items (⟨some ["z"], none, [("a", 1)]⟩ : Options Nat)).map Prod.snd
    ∧ Options.filtered_keys (⟨some ["z"], none, [("a", 1)]⟩ : Options Nat) = ["z"]
    ∧ Options.filtered_values (⟨some ["z"], none, [("a", 1)]⟩ : Options Nat) = [] := by
  refine ⟨(C7_dangling_include_names Nat _ "z").1 (by decide) (by decide) (by decide) (by decide),
    (C7_dangling_include_names Nat _ "z").2.1 (by decide) 1,
    (C7_dangling_include_names Nat _ "z").2.2, by decide, by decide⟩

/-- C8 (amended): the keys of `filtered_items` equal `filtered_keys` restricted
to keys actually present in `options` (dangling names removed), and the length
of `filtered_values` equals the length of `filtered_keys` minus the number of
dangling names in it.  (The claim's unrestricted first half fails on dangling
names, see the counterexample.) -/
theorem C8_items_values_keys_relation :
    ∀ (α : Type) (o : Options α),
      o.filtered_items.map Prod.fst
          = o.filtered_keys.filter (fun k => (dictGet o.options k).isSome)
      ∧ o.filtered_values.length
          = o.filtered_keys.length
            - (o.filtered_keys.filter (fun k => (dictGet o.options k).isNone)).length := by
  intro α o
  exact ⟨filtered_items_map_fst _ _, filtered_values_length _ _⟩

/-- C8 counterexample: with `options={'a':1}` and `include=['z']` the keys of
`filtered_items` are `[]` while `filtered_keys` is `['z']`, so the claimed
equality fails in the presence of a dangling name. -/
theorem C8_counterexample_dangling_keys :
    (Options.filtered_items (⟨some ["z"], none, [("a", 1)]⟩ : Options Nat)).map Prod.fst
        ≠ Options.filtered_keys (⟨some ["z"], none, [("a", 1)]⟩ : Options Nat)
    ∧ (Options.filtered_items (⟨some ["z"], none, [("a", 1)]⟩ : Options Nat)).map Prod.fst = []
    ∧ Options.filtered_keys (⟨some ["z"], none, [("a", 1)]⟩ : Options Nat) = ["z"] := by
  refine ⟨by decide, by decide, by decide⟩

/-- C9: the glob filter variant obeys the exact-match variant's
inclusion/exclusion precedence rules with membership replaced by "matches at
least one pattern" under shell-glob semantics; exclusion wins, and with
`include=['abc.*']` the candidate `'abc.def'` is included while `'xyz.def'`
is not. -/
theorem C9_glob_filter_spec :
    (∀ (o : OptionsGlob) (v : String),
      (o.filter v = true ↔ specGlobIncluded o v ∧ ¬ specGlobExcluded o v)
      ∧ (specGlobExcluded o v → o.filter v = false))
    ∧ OptionsGlob.filter ⟨some ["abc.*"], none⟩ "abc.def" = true
    ∧ OptionsGlob.filter ⟨some ["abc.*"], none⟩ "xyz.def" = false := by
  refine ⟨fun o v => ?_, by decide, by decide⟩
  obtain ⟨inc, exc⟩ := o
  have key : OptionsGlob.filter ⟨inc, exc⟩ v = true
      ↔ specGlobIncluded ⟨inc, exc⟩ v ∧ ¬ specGlobExcluded ⟨inc, exc⟩ v := by
    cases inc <;> cases exc <;>
      simp [OptionsGlob.filter, specGlobIncluded, specGlobExcluded, listTruthy, globAnyOpt,
        List.any_eq_true] <;>
      tauto
  refine ⟨key, fun hexc => ?_⟩
  rcases Bool.eq_false_or_eq_true (OptionsGlob.filter ⟨inc, exc⟩ v) with h | h
  · exact absurd hexc (key.mp h).2
  · exact h

/-! ### Dictionary operation lemmas -/

theorem dictGet_map_set_mem {α : Type} (l : List (String × α)) (k : String) (v : α)
    (hany : l.any (fun p => p.1 == k) = true) :
    dictGet (l.map (fun p => if p.1 == k then (p.1, v) else p)) k = some v := by
  induction l with
  | nil => simp at hany
  | cons p rest ih =>
    by_cases hp : p.1 = k
    · simp [dictGet, List.find?, hp]
    · have hb : (p.1 == k) = false := by simp [hp]
      have hrest : rest.any (fun p => p.1 == k) = true := by simpa [hb] using hany
      simpa [dictGet, List.find?, hb] using ih hrest

theorem dictGet_map_set_other {α : Type} (l : List (String × α)) (k k' : String) (v : α)
    (hne : k' ≠ k) :
    dictGet (l.map (fun p => if p.1 == k then (p.1, v) else p)) k' = dictGet l k' := by
  induction l with
  | nil => rfl
  | cons p rest ih =>
    by_cases hp : p.1 = k
    · have hb : (p.1 == k) = true := by simp [hp]
      have hb' : (p.1 == k') = false := by
        simp only [beq_eq_false_iff_ne, ne_eq, hp]
        exact fun h => hne h.symm
      simpa [dictGet, List.find?, hb, hb'] using ih
    · have hb : (p.1 == k) = false := by simp [hp]
      by_cases hp' : p.1 = k'
      · have hb' : (p.1 == k') = true := by simp [hp']
        simp [dictGet, List.find?, hb, hb']
      · have hb' : (p.1 == k') = false := by simp [hp']
        simpa [dictGet, List.find?, hb, hb'] using ih

theorem dictGet_none_of_not_any {α : Type} (l : List (String × α)) (k : String)
    (h : l.any (fun p => p.1 == k) = false) : dictGet l k = none := by
  induction l with
  | nil => rfl
  | cons p rest ih =>
    simp only [List.any_cons, Bool.or_eq_false_iff] at h
    simpa [dictGet, List.find?, h.1] using ih h.2

theorem dictGet_dictSet_same {α : Type} (l : List (String × α)) (k : String) (v : α) :
    dictGet (dictSet l k v) k = some v := by
  unfold dictSet
  by_cases hany : l.any (fun p => p.1 == k) = true
  · rw [if_pos hany]
    exact dictGet_map_set_mem l k v hany
  · rw [if_neg hany, dictGet, List.find?_append]
    have h1 : l.find? (fun p => p.1 == k) = none := by
      have hf : l.any (fun p => p.1 == k) = false := by
        cases h : l.any (fun p => p.1 == k) with
        | true => exact absurd h hany
        | false => rfl
      have := dictGet_none_of_not_any l k hf
      simpa [dictGet] using this
    simp [h1, List.find?]

theorem dictGet_dictSet_other {α : Type} (l : List (String × α)) (k k' : String) (v : α)
    (hne : k' ≠ k) : dictGet (dictSet l k v) k' = dictGet l k' := by
  unfold dictSet
  by_cases hany : l.any (fun p => p.1 == k) = true
  · rw [if_pos hany]
    exact dictGet_map_set_other l k k' v hne
  · rw [if_neg hany, dictGet, List.find?_append]
    have h2 : List.find? (fun p => p.1 == k') [(k, v)] = none := by
      have : (k == k') = false := by
        simp only [beq_eq_false_iff_ne, ne_eq]
        exact fun h => hne h.symm
      simp [List.find?, this]
    rw [h2]
    simp [dictGet]

theorem dictGet_dictDel_same {α : Type} (l : List (String × α)) (k : String) :
    dictGet (dictDel l k) k = none := by
  unfold dictDel
  induction l with
  | nil => rfl
  | cons p rest ih =>
    by_cases hp : p.1 = k
    · have hb : (p.1 == k) = true := by simp [hp]
      simpa [List.filter_cons, hb] using ih
    · have hb : (p.1 == k) = false := by simp [hp]
      simpa [List.filter_cons, hb, dictGet, List.find?] using ih

theorem dictGet_dictDel_other {α : Type} (l : List (String × α)) (k k' : String)
    (hne : k' ≠ k) : dictGet (dictDel l k) k' = dictGet l k' := by
  unfold dictDel
  induction l with
  | nil => rfl
  | cons p rest ih =>
    by_cases hp : p.1 = k
    · have hb : (p.1 == k) = true := by simp [hp]
      have hb' : (p.1 == k') = false := by
        simp only [beq_eq_false_iff_ne, ne_eq, hp]
        exact fun h => hne h.symm
      simpa [List.filter_cons, hb, dictGet, List.find?, hb'] using ih
    · have hb : (p.1 == k) = false := by simp [hp]
      by_cases hp' : p.1 = k'
      · have hb' : (p.1 == k') = true := by simp [hp']
        simp [List.filter_cons, hb, dictGet, List.find?, hb']
      · have hb' : (p.1 == k') = false := by simp [hp']
        simpa [List.filter_cons, hb, dictGet, List.find?, hb'] using ih

/-! ### Normalizer step lemmas -/

theorem bcAxisStep_other (key k' : String) (values : List (String × JVal)) (hne : k' ≠ key) :
    dictGet (bcAxisStep key values) k' = dictGet values k' := by
  cases h : dictGet values key with
  | none => simp [bcAxisStep, h]
  | some v =>
    cases v with
    | str s => simp [bcAxisStep, h, dictGet_dictSet_other _ _ _ _ hne]
    | null => simp [bcAxisStep, h]
    | num n => simp [bcAxisStep, h]
    | obj fs => simp [bcAxisStep, h]

theorem bcAxisStep_str (key : String) (values : List (String × JVal)) (s : String)
    (h : dictGet values key = some (.str s)) :
    dictGet (bcAxisStep key values) key = some (.obj [("quantity", .str s)]) := by
  simp [bcAxisStep, h, dictGet_dictSet_same]

theorem bcAxisStep_not_str (key : String) (values : List (String × JVal))
    (h : ∀ s, dictGet values key ≠ some (.str s)) :
    bcAxisStep key values = values := by
  cases hv : dictGet values key with
  | none => simp [bcAxisStep, hv]
  | some v =>
    cases v with
    | str s => exact absurd hv (h s)
    | null => simp [bcAxisStep, hv]
    | num n => simp [bcAxisStep, hv]
    | obj fs => simp [bcAxisStep, hv]

theorem bcColorStep_other (k' : String) (values : List (String × JVal))
    (h1 : k' ≠ "color") (h2 : k' ≠ "markers") :
    dictGet (bcColorStep values) k' = dictGet values k' := by
  cases h : dictGet values "color" with
  | none => simp [bcColorStep, h]
  | some c =>
    cases c with
    | null => simp [bcColorStep, h]
    | str s =>
      simp [bcColorStep, h, dictGet_dictDel_other _ _ _ h1, dictGet_dictSet_other _ _ _ _ h2]
    | num n =>
      simp [bcColorStep, h, dictGet_dictDel_other _ _ _ h1, dictGet_dictSet_other _ _ _ _ h2]
    | obj fs =>
      simp [bcColorStep, h, dictGet_dictDel_other _ _ _ h1, dictGet_dictSet_other _ _ _ _ h2]

theorem bcColorStep_color (values : List (String × JVal)) (c : JVal)
    (h : dictGet values "color" = some c) (hc : c ≠ JVal.null) :
    dictGet (bcColorStep values) "color" = none
    ∧ dictGet (bcColorStep values) "markers"
        = some (.obj [("color", .obj [("quantity", c)])]) := by
  have hm : ("markers" : String) ≠ "color" := by decide
  cases c with
  | null => exact absurd rfl hc
  | str s =>
    refine ⟨by simp [bcColorStep, h, dictGet_dictDel_same], ?_⟩
    simp [bcColorStep, h, dictGet_dictDel_other _ _ _ hm, dictGet_dictSet_same]
  | num n =>
    refine ⟨by simp [bcColorStep, h, dictGet_dictDel_same], ?_⟩
    simp [bcColorStep, h, dictGet_dictDel_other _ _ _ hm, dictGet_dictSet_same]
  | obj fs =>
    refine ⟨by simp [bcColorStep, h, dictGet_dictDel_same], ?_⟩
    simp [bcColorStep, h, dictGet_dictDel_other _ _ _ hm, dictGet_dictSet_same]

theorem bcColorStep_absent (values : List (String × JVal))
    (h : dictGet values "color" = none ∨ dictGet values "color" = some JVal.null) :
    bcColorStep values = values := by
  rcases h with h | h <;> simp [bcColorStep, h]

/-- C10: the scatter plot widget's backwards-compatibility normalizer removes
a present, non-None `color` key and replaces `markers` by
`{'color': {'quantity': <color>}}` (overwriting any supplied value); it
rewrites a plain string under `x` (respectively `y`) into
`{'quantity': <string>}`; every other key's value passes through unchanged,
as do `color`/`markers` when `color` is absent or None and `x`/`y` when they
are not plain strings. -/
theorem C10_backwards_compatibility_normalizer :
    ∀ values : List (String × JVal),
      (∀ k, k ≠ "color" → k ≠ "markers" → k ≠ "x" → k ≠ "y" →
        dictGet (WidgetScatterPlot.backwards_compatibility values) k = dictGet values k)
      ∧ (∀ c, dictGet values "color" = some c → c ≠ JVal.null →
          dictGet (WidgetScatterPlot.backwards_compatibility values) "color" = none
          ∧ dictGet (WidgetScatterPlot.backwards_compatibility values) "markers"
              = some (.obj [("color", .obj [("quantity", c)])]))
      ∧ ((dictGet values "color" = none ∨ dictGet values "color" = some JVal.null) →
          dictGet (WidgetScatterPlot.backwards_compatibility values) "color"
              = dictGet values "color"
          ∧ dictGet (WidgetScatterPlot.backwards_compatibility values) "markers"
              = dictGet values "markers")
      ∧ (∀ s, dictGet values "x" = some (.str s) →
          dictGet (WidgetScatterPlot.backwards_compatibility values) "x"
            = some (.obj [("quantity", .str s)]))
      ∧ ((∀ s, dictGet values "x" ≠ some (.str s)) →
          dictGet (WidgetScatterPlot.backwards_compatibility values) "x"
            = dictGet values "x")
      ∧ (∀ s, dictGet values "y" = some (.str s) →
          dictGet (WidgetScatterPlot.backwards_compatibility values) "y"
            = some (.obj [("quantity", .str s)]))
      ∧ ((∀ s, dictGet values "y" ≠ some (.str s)) →
          dictGet (WidgetScatterPlot.backwards_compatibility values) "y"
            = dictGet values "y") := by
  intro values
  unfold WidgetScatterPlot.backwards_compatibility
  refine ⟨?_, ?_, ?_, ?_, ?_, ?_, ?_⟩
  · intro k h1 h2 h3 h4
    rw [bcAxisStep_other _ _ _ h4, bcAxisStep_other _ _ _ h3, bcColorStep_other _ _ h1 h2]
  · intro c hc hcnull
    have h1 := bcColorStep_color values c hc hcnull
    constructor
    · rw [bcAxisStep_other _ _ _ (by decide), bcAxisStep_other _ _ _ (by decide)]
      exact h1.1
    · rw [bcAxisStep_other _ _ _ (by decide), bcAxisStep_other _ _ _ (by decide)]
      exact h1.2
  · intro h
    rw [bcColorStep_absent values h]
    constructor
    · rw [bcAxisStep_other _ _ _ (by decide), bcAxisStep_other _ _ _ (by decide)]
    · rw [bcAxisStep_other _ _ _ (by decide), bcAxisStep_other _ _ _ (by decide)]
  · intro s hs
    have hx : dictGet (bcColorStep values) "x" = dictGet values "x" :=
      bcColorStep_other _ _ (by decide) (by decide)
    rw [bcAxisStep_other _ _ _ (by decide), bcAxisStep_str _ _ s (by rw [hx, hs])]
  · intro hs
    have hx : dictGet (bcColorStep values) "x" = dictGet values "x" :=
      bcColorStep_other _ _ (by decide) (by decide)
    rw [bcAxisStep_other _ _ _ (by decide),
      bcAxisStep_not_str _ _ (fun s h => hs s (by rw [← hx, h])), hx]
  · intro s hs
    have hy0 : dictGet (bcColorStep values) "y" = dictGet values "y" :=
      bcColorStep_other _ _ (by decide) (by decide)
    have hy1 : dictGet (bcAxisStep "x" (bcColorStep values)) "y" = dictGet values "y" := by
      rw [bcAxisStep_other _ _ _ (by decide), hy0]
    rw [bcAxisStep_str _ _ s (by rw [hy1, hs])]
  · intro hs
    have hy0 : dictGet (bcColorStep values) "y" = dictGet values "y" :=
      bcColorStep_other _ _ (by decide) (by decide)
    have hy1 : dictGet (bcAxisStep "x" (bcColorStep values)) "y" = dictGet values "y" := by
      rw [bcAxisStep_other _ _ _ (by decide), hy0]
    rw [bcAxisStep_not_str _ _ (fun s h => hs s (by rw [← hy1, h])), hy1]

/-- C10 witness: a concrete raw mapping with a non-None `color`, a string `x`,
a supplied `markers` value that gets overwritten, a non-string `y` and an
unrelated key `size` that passes through. -/
theorem C10_backwards_compatibility_normalizer_witness :
    dictGet (WidgetScatterPlot.backwards_compatibility
        [("color", JVal.str "c0"), ("markers", JVal.num 7), ("x", JVal.str "xq"),
         ("y", JVal.num 2), ("size", JVal.num 5)]) "size"
      = dictGet [("color", JVal.str "c0"), ("markers", JVal.num 7), ("x", JVal.str "xq"),
         ("y", JVal.num 2), ("size", JVal.num 5)] "size"
    ∧ dictGet (WidgetScatterPlot.backwards_compatibility
        [("color", JVal.str "c0"), ("markers", JVal.num 7), ("x", JVal.str "xq"),
         ("y", JVal.num 2), ("size", JVal.num 5)]) "color" = none
    ∧ dictGet (WidgetScatterPlot.backwards_compatibility
        [("color", JVal.str "c0"), ("markers", JVal.num 7), ("x", JVal.str "xq"),
         ("y", JVal.num 2), ("size", JVal.num 5)]) "markers"
      = some (.obj [("color", .obj [("quantity", JVal.str "c0")])])
    ∧ dictGet (WidgetScatterPlot.backwards_compatibility
        [("color", JVal.str "c0"), ("markers", JVal.num 7), ("x", JVal.str "xq"),
         ("y", JVal.num 2), ("size", JVal.num 5)]) "x"
      = some (.obj [("quantity", JVal.str "xq")])
    ∧ dictGet (WidgetScatterPlot.backwards_compatibility
        [("color", JVal.str "c0"), ("markers", JVal.num 7), ("x", JVal.str "xq"),
         ("y", JVal.num 2), ("size", JVal.num 5)]) "y"
      = dictGet [("color", JVal.str "c0"), ("markers", JVal.num 7), ("x", JVal.str "xq"),
         ("y", JVal.num 2), ("size", JVal.num 5)] "y" := by
  refine ⟨(C10_backwards_compatibility_normalizer _).1 "size"
      (by decide) (by decide) (by decide) (by decide),
    ((C10_backwards_compatibility_normalizer
        [("color", JVal.str "c0"), ("markers", JVal.num 7), ("x", JVal.str "xq"),
         ("y", JVal.num 2), ("size", JVal.num 5)]).2.1 (JVal.str "c0") rfl
      (fun h => JVal.noConfusion h)).1,
    ((C10_backwards_compatibility_normalizer
        [("color", JVal.str "c0"), ("markers", JVal.num 7), ("x", JVal.str "xq"),
         ("y", JVal.num 2), ("size", JVal.num 5)]).2.1 (JVal.str "c0") rfl
      (fun h => JVal.noConfusion h)).2,
    (C10_backwards_compatibility_normalizer
        [("color", JVal.str "c0"), ("markers", JVal.num 7), ("x", JVal.str "xq"),
         ("y", JVal.num 2), ("size", JVal.num 5)]).2.2.2.1 "xq" rfl,
    (C10_backwards_compatibility_normalizer
        [("color", JVal.str "c0"), ("markers", JVal.num 7), ("x", JVal.str "xq"),
         ("y", JVal.num 2), ("size", JVal.num 5)]).2.2.2.2.2.2
      (fun s h => JVal.noConfusion (Option.some.inj h))⟩

/-! ### Heap model: prefix and read-back lemmas -/

theorem prefix_getElem {h g : Heap} (hp : h <+: g) {i : Nat} (hi : i < h.length) :
    g[i]? = h[i]? := by
  obtain ⟨t, rfl⟩ := hp
  rw [List.getElem?_append, if_pos hi]

theorem concat_getElem_last (h : Heap) (o : Obj) : (h ++ [o])[h.length]? = some o :=
  List.getElem?_concat_length h o

theorem valOfFields_nil (fuel : Nat) (h : Heap) : valOfFields fuel h [] = some [] := rfl

theorem valOfFields_cons (fuel : Nat) (h : Heap) (f : String) (v : Val)
    (rest : List (String × Val)) :
    valOfFields fuel h ((f, v) :: rest)
      = (valOfVal fuel h v).bind fun t =>
          (valOfFields fuel h rest).map fun ts => (f, t) :: ts := by
  cases hv : valOfVal fuel h v with
  | none => simp [valOfFields, collectFields, hv]
  | some t => simp [valOfFields, collectFields, hv]

theorem buildFieldsWith_extends (build : Heap → DTree → Option (Heap × Val))
    (hb : ∀ h t h2 v, build h t = some (h2, v) → h <+: h2) :
    ∀ (fs : List (String × DTree)) (h h2 : Heap) (fvs : List (String × Val)),
      buildFieldsWith build h fs = some (h2, fvs) → h <+: h2 := by
  intro fs
  induction fs with
  | nil =>
    intro h h2 fvs heq
    simp [buildFieldsWith] at heq
    rw [heq.1]
  | cons ft rest ih =>
    intro h h2 fvs heq
    obtain ⟨f, t⟩ := ft
    simp only [buildFieldsWith, Option.bind_eq_some, Option.map_eq_some'] at heq
    obtain ⟨⟨hA, v⟩, hbuild, ⟨⟨hB, vs⟩, hrest, heq2⟩⟩ := heq
    have h1 : h <+: hA := hb h t hA v hbuild
    have h2' : hA <+: hB := ih hA hB vs hrest
    have : hB = h2 := by simpa using congrArg Prod.fst heq2
    exact h1.trans (this ▸ h2')

theorem buildFieldsWith_names (build : Heap → DTree → Option (Heap × Val)) :
    ∀ (fs : List (String × DTree)) (h h2 : Heap) (fvs : List (String × Val)),
      buildFieldsWith build h fs = some (h2, fvs) → fvs.map Prod.fst = fs.map Prod.fst := by
  intro fs
  induction fs with
  | nil =>
    intro h h2 fvs heq
    simp [buildFieldsWith] at heq
    simp [heq.2]
  | cons ft rest ih =>
    intro h h2 fvs heq
    obtain ⟨f, t⟩ := ft
    simp only [buildFieldsWith, Option.bind_eq_some, Option.map_eq_some'] at heq
    obtain ⟨⟨hA, v⟩, hbuild, ⟨⟨hB, vs⟩, hrest, heq2⟩⟩ := heq
    have hfst : fvs = (f, v) :: vs := by
      have := congrArg Prod.snd heq2
      simpa using this.symm
    simp [hfst, ih hA hB vs hrest]

theorem buildVal_extends :
    ∀ (fuel : Nat) (h : Heap) (t : DTree) (h2 : Heap) (v : Val),
      buildVal fuel h t = some (h2, v) → h <+: h2 := by
  intro fuel
  induction fuel with
  | zero =>
    intro h t h2 v heq
    cases t with
    | prim n => simp [buildVal] at heq; rw [heq.1]
    | node fs => simp [buildVal] at heq
  | succ fuel ih =>
    intro h t h2 v heq
    cases t with
    | prim n => simp [buildVal] at heq; rw [heq.1]
    | node fs =>
      simp only [buildVal, Option.map_eq_some'] at heq
      obtain ⟨⟨hB, fvs⟩, hrest, heq2⟩ := heq
      have h1 : h <+: hB :=
        buildFieldsWith_extends _ (fun h' t' h2' v' hb => ih h' t' h2' v' hb) fs h hB fvs hrest
      have h2eq : hB ++ [Obj.mk fvs] = h2 := by simpa using congrArg Prod.fst heq2
      exact h1.trans (h2eq ▸ ⟨[Obj.mk fvs], rfl⟩)

theorem buildFields_extends (fuel : Nat) (h : Heap) (fs : List (String × DTree))
    (h2 : Heap) (fvs : List (String × Val)) (heq : buildFields fuel h fs = some (h2, fvs)) :
    h <+: h2 :=
  buildFieldsWith_extends _ (fun h' t' h2' v' hb => buildVal_extends fuel h' t' h2' v' hb)
    fs h h2 fvs heq

theorem build_read :
    ∀ fuel : Nat,
      (∀ (t : DTree) (h h2 : Heap) (v : Val), buildVal fuel h t = some (h2, v) →
        ∀ g : Heap, h2 <+: g → valOfVal fuel g v = some t)
      ∧ (∀ (fs : List (String × DTree)) (h h2 : Heap) (fvs : List (String × Val)),
          buildFields fuel h fs = some (h2, fvs) →
          ∀ g : Heap, h2 <+: g → valOfFields fuel g fvs = some fs) := by
  intro fuel
  induction fuel with
  | zero =>
    have hv : ∀ (t : DTree) (h h2 : Heap) (v : Val), buildVal 0 h t = some (h2, v) →
        ∀ g : Heap, h2 <+: g → valOfVal 0 g v = some t := by
      intro t h h2 v heq g hg
      cases t with
      | prim n =>
        simp only [buildVal, Option.some.injEq, Prod.mk.injEq] at heq
        rw [← heq.2, valOfVal]
      | node fs => simp [buildVal] at heq
    refine ⟨hv, ?_⟩
    intro fs
    induction fs with
    | nil =>
      intro h h2 fvs heq g hg
      simp only [buildFields, buildFieldsWith, Option.some.injEq, Prod.mk.injEq] at heq
      rw [← heq.2, valOfFields_nil]
    | cons ft rest ihrest =>
      intro h h2 fvs heq g hg
      obtain ⟨f, t⟩ := ft
      simp only [buildFields, buildFieldsWith, Option.bind_eq_some, Option.map_eq_some'] at heq
      obtain ⟨⟨hA, v⟩, hbuild, ⟨⟨hB, vs⟩, hrest, heq2⟩⟩ := heq
      have hBeq : hB = h2 := by simpa using congrArg Prod.fst heq2
      have hfvs : fvs = (f, v) :: vs := by simpa using (congrArg Prod.snd heq2).symm
      rw [hBeq] at hrest
      rw [hfvs, valOfFields_cons,
        hv t h hA v hbuild g ((buildFieldsWith_extends _
          (fun h' t' h2' v' hb => buildVal_extends 0 h' t' h2' v' hb)
          rest hA h2 vs hrest).trans hg),
        ihrest hA h2 vs hrest g hg]
      rfl
  | succ fuel ih =>
    have hv : ∀ (t : DTree) (h h2 : Heap) (v : Val), buildVal (fuel + 1) h t = some (h2, v) →
        ∀ g : Heap, h2 <+: g → valOfVal (fuel + 1) g v = some t := by
      intro t h h2 v heq g hg
      cases t with
      | prim n =>
        simp only [buildVal, Option.some.injEq, Prod.mk.injEq] at heq
        rw [← heq.2, valOfVal]
      | node fs =>
        simp only [buildVal, Option.map_eq_some'] at heq
        obtain ⟨⟨hB, fvs⟩, hrest, heq2⟩ := heq
        have hh2 : hB ++ [Obj.mk fvs] = h2 := by simpa using congrArg Prod.fst heq2
        have hv' : Val.ref hB.length = v := by simpa using congrArg Prod.snd heq2
        rw [← hv', valOfVal]
        have hread : g[hB.length]? = some (Obj.mk fvs) := by
          have h1 : h2[hB.length]? = some (Obj.mk fvs) := by
            rw [← hh2]; exact concat_getElem_last hB (Obj.mk fvs)
          have hlen : hB.length < h2.length := by
            rw [← hh2]; simp
          rw [prefix_getElem hg hlen, h1]
        rw [hread]
        have hfields : valOfFields fuel g fvs = some fs := by
          refine ih.2 fs h hB fvs hrest g ?_
          calc hB <+: hB ++ [Obj.mk fvs] := ⟨[Obj.mk fvs], rfl⟩
            _ <+: g := hh2 ▸ hg
        simpa [valOfFields] using congrArg (Option.map DTree.node) hfields
    refine ⟨hv, ?_⟩
    intro fs
    induction fs with
    | nil =>
      intro h h2 fvs heq g hg
      simp only [buildFields, buildFieldsWith, Option.some.injEq, Prod.mk.injEq] at heq
      rw [← heq.2, valOfFields_nil]
    | cons ft rest ihrest =>
      intro h h2 fvs heq g hg
      obtain ⟨f, t⟩ := ft
      simp only [buildFields, buildFieldsWith, Option.bind_eq_some, Option.map_eq_some'] at heq
      obtain ⟨⟨hA, v⟩, hbuild, ⟨⟨hB, vs⟩, hrest, heq2⟩⟩ := heq
      have hBeq : hB = h2 := by simpa using congrArg Prod.fst heq2
      have hfvs : fvs = (f, v) :: vs := by simpa using (congrArg Prod.snd heq2).symm
      rw [hBeq] at hrest
      have hApre : hA <+: g :=
        ((buildFieldsWith_extends _
          (fun h' t' h2' v' hb => buildVal_extends (fuel + 1) h' t' h2' v' hb)
          rest hA h2 vs hrest).trans hg)
      rw [hfvs, valOfFields_cons, hv t h hA v hbuild g hApre, ihrest hA h2 vs hrest g hg]
      rfl

/-! ### Heap model: freshness of the copied region -/

theorem valIn_mono {lo lo' hi hi' : Nat} (hlo : lo' ≤ lo) (hhi : hi ≤ hi') (v : Val)
    (h : valIn lo hi v) : valIn lo' hi' v := by
  cases v with
  | prim n => trivial
  | ref a => exact ⟨le_trans hlo h.1, lt_of_lt_of_le h.2 hhi⟩

theorem getElem_none_of_le {h : Heap} {i : Nat} (hi : h.length ≤ i) : h[i]? = none :=
  List.getElem?_eq_none hi

theorem build_region :
    ∀ fuel : Nat,
      (∀ (t : DTree) (h h2 : Heap) (v : Val), buildVal fuel h t = some (h2, v) →
        valIn h.length h2.length v ∧ newRegionOK h.length h2)
      ∧ (∀ (fs : List (String × DTree)) (h h2 : Heap) (fvs : List (String × Val)),
          buildFields fuel h fs = some (h2, fvs) →
          (∀ fv ∈ fvs, valIn h.length h2.length fv.2) ∧ newRegionOK h.length h2) := by
  have hempty : ∀ h : Heap, newRegionOK h.length h := by
    intro h i o hi ho
    rw [getElem_none_of_le hi] at ho
    exact absurd ho (by simp)
  intro fuel
  induction fuel with
  | zero =>
    have hv : ∀ (t : DTree) (h h2 : Heap) (v : Val), buildVal 0 h t = some (h2, v) →
        valIn h.length h2.length v ∧ newRegionOK h.length h2 := by
      intro t h h2 v heq
      cases t with
      | prim n =>
        simp only [buildVal, Option.some.injEq, Prod.mk.injEq] at heq
        rw [← heq.1, ← heq.2]
        exact ⟨trivial, hempty h⟩
      | node fs => simp [buildVal] at heq
    refine ⟨hv, ?_⟩
    intro fs
    induction fs with
    | nil =>
      intro h h2 fvs heq
      simp only [buildFields, buildFieldsWith, Option.some.injEq, Prod.mk.injEq] at heq
      rw [← heq.1, ← heq.2]
      exact ⟨by simp, hempty h⟩
    | cons ft rest ihrest =>
      intro h h2 fvs heq
      obtain ⟨f, t⟩ := ft
      simp only [buildFields, buildFieldsWith, Option.bind_eq_some, Option.map_eq_some'] at heq
      obtain ⟨⟨hA, v⟩, hbuild, ⟨⟨hB, vs⟩, hrest, heq2⟩⟩ := heq
      have hBeq : hB = h2 := by simpa using congrArg Prod.fst heq2
      have hfvs : fvs = (f, v) :: vs := by simpa using (congrArg Prod.snd heq2).symm
      rw [hBeq] at hrest
      have h1 := hv t h hA v hbuild
      have h2' := ihrest hA h2 vs hrest
      have hha : h <+: hA := buildVal_extends 0 h t hA v hbuild
      have hab : hA <+: h2 :=
        buildFieldsWith_extends _ (fun h' t' h2' v' hb => buildVal_extends 0 h' t' h2' v' hb)
          rest hA h2 vs hrest
      refine ⟨?_, ?_⟩
      · intro fv hfv
        rw [hfvs] at hfv
        rcases List.mem_cons.mp hfv with hfv | hfv
        · rw [hfv]
          exact valIn_mono le_rfl hab.length_le v h1.1
        · exact valIn_mono hha.length_le le_rfl fv.2 (h2'.1 fv hfv)
      · intro i o hi ho hfv hmem
        by_cases hiA : i < hA.length
        · have : hA[i]? = some o := by rw [← prefix_getElem hab hiA, ho]
          exact valIn_mono le_rfl hab.length_le _ (h1.2 i o hi this hfv hmem)
        · exact valIn_mono hha.length_le le_rfl _
            (h2'.2 i o (le_of_not_lt hiA) ho hfv hmem)
  | succ fuel ih =>
    have hv : ∀ (t : DTree) (h h2 : Heap) (v : Val), buildVal (fuel + 1) h t = some (h2, v) →
        valIn h.length h2.length v ∧ newRegionOK h.length h2 := by
      intro t h h2 v heq
      cases t with
      | prim n =>
        simp only [buildVal, Option.some.injEq, Prod.mk.injEq] at heq
        rw [← heq.1, ← heq.2]
        exact ⟨trivial, hempty h⟩
      | node fs =>
        simp only [buildVal, Option.map_eq_some'] at heq
        obtain ⟨⟨hB, fvs⟩, hrest, heq2⟩ := heq
        have hh2 : hB ++ [Obj.mk fvs] = h2 := by simpa using congrArg Prod.fst heq2
        have hvv : Val.ref hB.length = v := by simpa using congrArg Prod.snd heq2
        have hfr := ih.2 fs h hB fvs hrest
        have hhb : h <+: hB := buildFields_extends fuel h fs hB fvs hrest
        have hlen2 : h2.length = hB.length + 1 := by rw [← hh2]; simp
        refine ⟨?_, ?_⟩
        · rw [← hvv]
          exact ⟨hhb.length_le, by omega⟩
        · intro i o hi ho hfv hmem
          by_cases hiB : i < hB.length
          · have : hB[i]? = some o := by
              rw [← ho, ← hh2, List.getElem?_append, if_pos hiB]
            exact valIn_mono le_rfl (by omega) _ (hfr.2 i o hi this hfv hmem)
          · by_cases hieq : i = hB.length
            · have : o = Obj.mk fvs := by
                rw [← hh2, hieq] at ho
                rw [concat_getElem_last] at ho
                exact (Option.some.inj ho).symm
              rw [this] at hmem
              exact valIn_mono le_rfl (by omega) _ (hfr.1 hfv hmem)
            · have : h2[i]? = none := by
                apply getElem_none_of_le
                omega
              rw [this] at ho
              exact absurd ho (by simp)
    refine ⟨hv, ?_⟩
    intro fs
    induction fs with
    | nil =>
      intro h h2 fvs heq
      simp only [buildFields, buildFieldsWith, Option.some.injEq, Prod.mk.injEq] at heq
      rw [← heq.1, ← heq.2]
      exact ⟨by simp, hempty h⟩
    | cons ft rest ihrest =>
      intro h h2 fvs heq
      obtain ⟨f, t⟩ := ft
      simp only [buildFields, buildFieldsWith, Option.bind_eq_some, Option.map_eq_some'] at heq
      obtain ⟨⟨hA, v⟩, hbuild, ⟨⟨hB, vs⟩, hrest, heq2⟩⟩ := heq
      have hBeq : hB = h2 := by simpa using congrArg Prod.fst heq2
      have hfvs : fvs = (f, v) :: vs := by simpa using (congrArg Prod.snd heq2).symm
      rw [hBeq] at hrest
      have h1 := hv t h hA v hbuild
      have h2' := ihrest hA h2 vs hrest
      have hha : h <+: hA := buildVal_extends (fuel + 1) h t hA v hbuild
      have hab : hA <+: h2 :=
        buildFieldsWith_extends _
          (fun h' t' h2' v' hb => buildVal_extends (fuel + 1) h' t' h2' v' hb)
          rest hA h2 vs hrest
      refine ⟨?_, ?_⟩
      · intro fv hfv
        rw [hfvs] at hfv
        rcases List.mem_cons.mp hfv with hfv | hfv
        · rw [hfv]
          exact valIn_mono le_rfl hab.length_le v h1.1
        · exact valIn_mono hha.length_le le_rfl fv.2 (h2'.1 fv hfv)
      · intro i o hi ho hfv hmem
        by_cases hiA : i < hA.length
        · have : hA[i]? = some o := by rw [← prefix_getElem hab hiA, ho]
          exact valIn_mono le_rfl hab.length_le _ (h1.2 i o hi this hfv hmem)
        · exact valIn_mono hha.length_le le_rfl _
            (h2'.2 i o (le_of_not_lt hiA) ho hfv hmem)

/-! ### Heap model: agreement, reachability and framing -/

theorem valOfFields_names :
    ∀ (fs : List (String × Val)) (fuel : Nat) (h : Heap) (tfs : List (String × DTree)),
      valOfFields fuel h fs = some tfs → tfs.map Prod.fst = fs.map Prod.fst := by
  intro fs
  induction fs with
  | nil =>
    intro fuel h tfs heq
    simp only [valOfFields_nil, Option.some.injEq] at heq
    rw [← heq]
    rfl
  | cons fv rest ih =>
    intro fuel h tfs heq
    obtain ⟨f, v⟩ := fv
    rw [valOfFields_cons] at heq
    simp only [Option.bind_eq_some, Option.map_eq_some'] at heq
    obtain ⟨t, hv, ts, hrest, heq2⟩ := heq
    rw [← heq2]
    simp [ih fuel h ts hrest]

theorem closedBelow_of_closed {h : Heap} (hc : Closed h) : closedBelow h.length h := by
  intro i hi o ho fv hmem
  exact hc o (List.getElem?_mem ho) fv hmem

theorem val_agree :
    ∀ (fuel m : Nat) (g g' : Heap),
      (∀ i, i < m → g[i]? = g'[i]?) → closedBelow m g' →
      (∀ v : Val, valBelow m v = true → valOfVal fuel g v = valOfVal fuel g' v)
      ∧ (∀ fs : List (String × Val), (∀ fv ∈ fs, valBelow m fv.2 = true) →
          valOfFields fuel g fs = valOfFields fuel g' fs) := by
  intro fuel
  induction fuel with
  | zero =>
    intro m g g' hag hcl
    have hv : ∀ v : Val, valBelow m v = true → valOfVal 0 g v = valOfVal 0 g' v := by
      intro v hb
      cases v with
      | prim n => rfl
      | ref a => rfl
    refine ⟨hv, ?_⟩
    intro fs
    induction fs with
    | nil => intro hb; rfl
    | cons fv rest ih =>
      intro hb
      obtain ⟨f, v⟩ := fv
      rw [valOfFields_cons, valOfFields_cons, hv v (hb (f, v) (List.mem_cons_self _ _)),
        ih (fun fv hfv => hb fv (List.mem_cons_of_mem _ hfv))]
  | succ fuel ihf =>
    intro m g g' hag hcl
    have hv : ∀ v : Val, valBelow m v = true →
        valOfVal (fuel + 1) g v = valOfVal (fuel + 1) g' v := by
      intro v hb
      cases v with
      | prim n => rfl
      | ref a =>
        have ha : a < m := by simpa [valBelow] using hb
        show (g[a]?).bind _ = (g'[a]?).bind _
        rw [hag a ha]
        cases ho : g'[a]? with
        | none => rfl
        | some o =>
          have hfields : valOfFields fuel g o.fields = valOfFields fuel g' o.fields :=
            (ihf m g g' hag hcl).2 o.fields (fun fv hfv => hcl a ha o ho fv hfv)
          exact congrArg (Option.map DTree.node) hfields
    refine ⟨hv, ?_⟩
    intro fs
    induction fs with
    | nil => intro hb; rfl
    | cons fv rest ih =>
      intro hb
      obtain ⟨f, v⟩ := fv
      rw [valOfFields_cons, valOfFields_cons, hv v (hb (f, v) (List.mem_cons_self _ _)),
        ih (fun fv hfv => hb fv (List.mem_cons_of_mem _ hfv))]

theorem newRegionOK_concat {lo : Nat} {h1 : Heap} {o : Obj}
    (hreg : newRegionOK lo h1) (ho : ∀ fv ∈ o.fields, valIn lo h1.length fv.2) :
    newRegionOK lo (h1 ++ [o]) := by
  intro i ob hi hob fv hmem
  have hlen : (h1 ++ [o]).length = h1.length + 1 := by simp
  by_cases hiB : i < h1.length
  · have : h1[i]? = some ob := by
      rw [← hob, List.getElem?_append, if_pos hiB]
    exact valIn_mono le_rfl (by omega) _ (hreg i ob hi this fv hmem)
  · by_cases hieq : i = h1.length
    · have : ob = o := by
        rw [hieq, concat_getElem_last] at hob
        exact (Option.some.inj hob).symm
      rw [this] at hmem
      exact valIn_mono le_rfl (by omega) _ (ho fv hmem)
    · have : (h1 ++ [o])[i]? = none := by
        apply getElem_none_of_le
        omega
      rw [this] at hob
      exact absurd hob (by simp)

theorem reach_in_region {h' : Heap} {lo r : Nat} (hreg : newRegionOK lo h')
    (hr : lo ≤ r) : ∀ x, Reach h' r x → lo ≤ x := by
  intro x hx
  induction hx with
  | refl => exact hr
  | @step b c o f _ ho hmem ih => exact (hreg b o ih ho (f, Val.ref c) hmem).1

/-- C4: `customize(B, {})` returns a node deeply equal to `B` but independent
of it: the returned address is fresh, its deep value equals `B`'s, mutating
any object reachable from the returned node leaves `B`'s deep value unchanged,
and no previously allocated object (in particular neither `B` nor anything it
references) is modified, so `customize` mutates neither `B` nor the supplied
overrides. -/
theorem C4_customize_deep_copy :
    ∀ (fuel : Nat) (h : Heap) (a : Nat) (h' : Heap) (r : Nat),
      Closed h → a < h.length →
      NomadSettings.customize fuel h a (.dict []) = some (.ok (h', r)) →
      (∀ i, i < h.length → h'[i]? = h[i]?)
      ∧ h.length ≤ r
      ∧ valOfObj fuel h' r = valOfObj fuel h a
      ∧ (∀ x, Reach h' r x → ∀ o' : Obj,
          valOfObj fuel (writeObj h' x o') a = valOfObj fuel h a) := by
  intro fuel h a h' r hcl ha hcust
  unfold NomadSettings.customize at hcust
  cases hval : valOfObj fuel h a with
  | none => rw [hval] at hcust; simp at hcust
  | some tfs =>
    rw [hval] at hcust
    simp only [Option.some_bind] at hcust
    cases hbuild : buildFields fuel h tfs with
    | none => rw [hbuild] at hcust; simp at hcust
    | some hfvs =>
      obtain ⟨h1, fvs⟩ := hfvs
      rw [hbuild] at hcust
      simp only [truthyOverride, Option.some_bind, Option.map_some', List.isEmpty_nil,
        Bool.not_true, Bool.false_eq_true, if_false, Option.some.injEq, Except.ok.injEq,
        Prod.mk.injEq] at hcust
      obtain ⟨hh', hr⟩ := hcust
      have hpre1 : h <+: h1 := buildFields_extends fuel h tfs h1 fvs hbuild
      have hpre2 : h1 <+: h' := hh' ▸ ⟨[Obj.mk fvs], rfl⟩
      have hpre : h <+: h' := hpre1.trans hpre2
      have hregion := (build_region fuel).2 tfs h h1 fvs hbuild
      have hregion' : newRegionOK h.length h' := by
        rw [← hh']
        exact newRegionOK_concat hregion.2 hregion.1
      have hrlo : h.length ≤ r := hr ▸ hpre1.length_le
      have hext : ∀ i, i < h.length → h'[i]? = h[i]? := fun i hi => prefix_getElem hpre hi
      refine ⟨hext, hrlo, ?_, ?_⟩
      · show valOfObj fuel h' r = some tfs
        have hro : h'[r]? = some (Obj.mk fvs) := by
          rw [← hh', ← hr]
          exact concat_getElem_last h1 (Obj.mk fvs)
        unfold valOfObj
        rw [hro]
        have := (build_read fuel).2 tfs h h1 fvs hbuild h' hpre2
        simpa using this
      · intro x hx o'
        have hxlo : h.length ≤ x := reach_in_region hregion' hrlo x hx
        have hag : ∀ i, i < h.length → (writeObj h' x o')[i]? = h[i]? := by
          intro i hi
          unfold writeObj
          rw [List.getElem?_set_ne (by omega : x ≠ i)]
          exact hext i hi
        cases hobj : h[a]? with
        | none =>
          unfold valOfObj at hval
          rw [hobj] at hval
          exact absurd hval (by simp)
        | some o0 =>
          have hfldb : ∀ fv ∈ o0.fields, valBelow h.length fv.2 = true :=
            fun fv hfv => hcl o0 (List.getElem?_mem hobj) fv hfv
          have hagree := (val_agree fuel h.length (writeObj h' x o') h hag
            (closedBelow_of_closed hcl)).2 o0.fields hfldb
          unfold valOfObj
          rw [hag a ha, hobj, hval.symm]
          unfold valOfObj
          rw [hobj]
          simpa using hagree

/-- C4 witness: a two-object configuration (a root with a primitive field and
a submodel reference); `customize` with an empty mapping yields a fresh deep
copy at address 3 whose deep value matches, the original entries are
untouched, and overwriting the copied root does not change the base's deep
value. -/
theorem C4_customize_deep_copy_witness :
    ([Obj.mk [("x", Val.prim 1), ("sub", Val.ref 1)], Obj.mk [("y", Val.prim 2)],
        Obj.mk [("y", Val.prim 2)], Obj.mk [("x", Val.prim 1), ("sub", Val.ref 2)]] : Heap)[0]?
      = ([Obj.mk [("x", Val.prim 1), ("sub", Val.ref 1)], Obj.mk [("y", Val.prim 2)]] : Heap)[0]?
    ∧ ([Obj.mk [("x", Val.prim 1), ("sub", Val.ref 1)], Obj.mk [("y", Val.prim 2)]] : Heap).length
        ≤ 3
    ∧ valOfObj 2 [Obj.mk [("x", Val.prim 1), ("sub", Val.ref 1)], Obj.mk [("y", Val.prim 2)],
        Obj.mk [("y", Val.prim 2)], Obj.mk [("x", Val.prim 1), ("sub", Val.ref 2)]] 3
      = valOfObj 2 [Obj.mk [("x", Val.prim 1), ("sub", Val.ref 1)], Obj.mk [("y", Val.prim 2)]] 0
    ∧ valOfObj 2 (writeObj [Obj.mk [("x", Val.prim 1), ("sub", Val.ref 1)],
        Obj.mk [("y", Val.prim 2)], Obj.mk [("y", Val.prim 2)],
        Obj.mk [("x", Val.prim 1), ("sub", Val.ref 2)]] 3 (Obj.mk [])) 0
      = valOfObj 2 [Obj.mk [("x", Val.prim 1), ("sub", Val.ref 1)], Obj.mk [("y", Val.prim 2)]] 0 := by
  have hmain := C4_customize_deep_copy 2
    [Obj.mk [("x", Val.prim 1), ("sub", Val.ref 1)], Obj.mk [("y", Val.prim 2)]] 0
    [Obj.mk [("x", Val.prim 1), ("sub", Val.ref 1)], Obj.mk [("y", Val.prim 2)],
      Obj.mk [("y", Val.prim 2)], Obj.mk [("x", Val.prim 1), ("sub", Val.ref 2)]] 3
    (by decide) (by decide) (by rfl)
  exact ⟨hmain.1 0 (by decide), hmain.2.1, hmain.2.2.1,
    hmain.2.2.2 3 Reach.refl (Obj.mk [])⟩

/-! ### Heap model: `setattr` and the override loops -/

theorem setField_fst (o : Obj) (f : String) (v : Val) :
    (setField o f v).fields.map Prod.fst = o.fields.map Prod.fst := by
  unfold setField
  rw [List.map_map]
  apply List.map_congr_left
  intro fv _
  by_cases hf : fv.1 = f <;> simp [hf]

theorem hasField_iff_names (o : Obj) (f : String) :
    hasField o f = true ↔ f ∈ o.fields.map Prod.fst := by
  unfold hasField
  rw [List.any_eq_true]
  constructor
  · rintro ⟨fv, hmem, hbeq⟩
    have hf : fv.1 = f := by simpa using hbeq
    rw [← hf]
    exact List.mem_map_of_mem Prod.fst hmem
  · intro hm
    obtain ⟨fv, hmem, hfst⟩ := List.mem_map.mp hm
    exact ⟨fv, hmem, by simp [hfst]⟩

theorem hasField_setField (o : Obj) (f g : String) (v : Val) :
    hasField (setField o f v) g = hasField o g := by
  cases hg : hasField o g with
  | true =>
    have := (hasField_iff_names o g).mp hg
    exact (hasField_iff_names _ g).mpr (by rw [setField_fst]; exact this)
  | false =>
    cases hg' : hasField (setField o f v) g with
    | false => rfl
    | true =>
      have := (hasField_iff_names _ g).mp hg'
      rw [setField_fst] at this
      rw [(hasField_iff_names o g).mpr this] at hg
      exact hg

theorem getField_setField_same (o : Obj) (f : String) (v : Val)
    (hf : hasField o f = true) : getField (setField o f v) f = some v :=
  dictGet_map_set_mem o.fields f v hf

theorem getField_setField_other (o : Obj) (f g : String) (v : Val)
    (hne : g ≠ f) : getField (setField o f v) g = getField o g :=
  dictGet_map_set_other o.fields f g v hne

theorem applyNode_frame :
    ∀ (fs : List (String × Val)) (o o' : Obj), applyNode o fs = .ok o' →
      ∀ g, g ∉ fs.map Prod.fst → getField o' g = getField o g := by
  intro fs
  induction fs with
  | nil =>
    intro o o' heq g hg
    simp only [applyNode, Except.ok.injEq] at heq
    rw [heq]
  | cons fv rest ih =>
    intro o o' heq g hg
    obtain ⟨f, v⟩ := fv
    simp only [List.map_cons, List.mem_cons, not_or] at hg
    unfold applyNode at heq
    unfold setattr at heq
    by_cases hf : hasField o f = true
    · rw [if_pos hf] at heq
      rw [ih (setField o f v) o' heq g hg.2]
      exact getField_setField_other o f g v hg.1
    · rw [if_neg hf] at heq
      exact absurd heq (by simp)

theorem applyNode_ok_getField :
    ∀ (fs : List (String × Val)) (o o' : Obj), applyNode o fs = .ok o' →
      (fs.map Prod.fst).Nodup → ∀ fv ∈ fs, getField o' fv.1 = some fv.2 := by
  intro fs
  induction fs with
  | nil => intro o o' heq hnd fv hfv; simp at hfv
  | cons fv0 rest ih =>
    intro o o' heq hnd fv hfv
    obtain ⟨f, v⟩ := fv0
    unfold applyNode at heq
    unfold setattr at heq
    by_cases hf : hasField o f = true
    · rw [if_pos hf] at heq
      rcases List.mem_cons.mp hfv with hfv | hfv
      · rw [hfv]
        have hnotin : f ∉ rest.map Prod.fst := by
          simpa using (List.nodup_cons.mp hnd).1
        rw [applyNode_frame rest _ o' heq f hnotin]
        exact getField_setField_same o f v hf
      · exact ih (setField o f v) o' heq (List.nodup_cons.mp hnd).2 fv hfv
    · rw [if_neg hf] at heq
      exact absurd heq (by simp)

theorem applyNode_error :
    ∀ (fs : List (String × Val)) (o : Obj),
      (∃ fv ∈ fs, hasField o fv.1 = false) →
      ∃ f, (∃ v, (f, v) ∈ fs) ∧ hasField o f = false
        ∧ applyNode o fs = .error (.invalidSettingField f) := by
  intro fs
  induction fs with
  | nil => intro o hex; simp at hex
  | cons fv0 rest ih =>
    intro o hex
    obtain ⟨f0, v0⟩ := fv0
    by_cases hf0 : hasField o f0 = true
    · have hex' : ∃ fv ∈ rest, hasField (setField o f0 v0) fv.1 = false := by
        obtain ⟨fv, hmem, hbad⟩ := hex
        rcases List.mem_cons.mp hmem with hfv | hfv
        · rw [hfv] at hbad
          rw [hbad] at hf0
          exact absurd hf0 (by simp)
        · exact ⟨fv, hfv, by rw [hasField_setField]; exact hbad⟩
      obtain ⟨f, ⟨v, hmem⟩, hbad, happly⟩ := ih (setField o f0 v0) hex'
      refine ⟨f, ⟨v, List.mem_cons_of_mem _ hmem⟩, ?_, ?_⟩
      · rw [← hasField_setField o f0 f v0]
        exact hbad
      · unfold applyNode
        unfold setattr
        rw [if_pos hf0]
        exact happly
    · refine ⟨f0, ⟨v0, List.mem_cons_self _ _⟩, by simpa using hf0, ?_⟩
      unfold applyNode
      unfold setattr
      rw [if_neg hf0]

theorem applyDict_frame :
    ∀ (es : List (String × Option Val)) (o o' : Obj), applyDict o es = .ok o' →
      ∀ g, g ∉ es.map Prod.fst → getField o' g = getField o g := by
  intro es
  induction es with
  | nil =>
    intro o o' heq g hg
    simp only [applyDict, Except.ok.injEq] at heq
    rw [heq]
  | cons e rest ih =>
    intro o o' heq g hg
    obtain ⟨f, ov⟩ := e
    simp only [List.map_cons, List.mem_cons, not_or] at hg
    cases ov with
    | none => exact ih o o' heq g hg.2
    | some v =>
      unfold applyDict at heq
      unfold setattr at heq
      by_cases hf : hasField o f = true
      · rw [if_pos hf] at heq
        rw [ih (setField o f v) o' heq g hg.2]
        exact getField_setField_other o f g v hg.1
      · rw [if_neg hf] at heq
        exact absurd heq (by simp)

theorem applyDict_ok_getField :
    ∀ (es : List (String × Option Val)) (o o' : Obj), applyDict o es = .ok o' →
      (es.map Prod.fst).Nodup → ∀ e ∈ es,
        (e.2 = none → getField o' e.1 = getField o e.1)
        ∧ (∀ v, e.2 = some v → getField o' e.1 = some v) := by
  intro es
  induction es with
  | nil => intro o o' heq hnd e he; simp at he
  | cons e0 rest ih =>
    intro o o' heq hnd e he
    obtain ⟨f0, ov0⟩ := e0
    have hnotin : f0 ∉ rest.map Prod.fst := by
      simpa using (List.nodup_cons.mp hnd).1
    cases ov0 with
    | none =>
      rcases List.mem_cons.mp he with he' | he'
      · constructor
        · intro _
          rw [he']
          exact applyDict_frame rest o o' heq f0 hnotin
        · intro v hv
          rw [he'] at hv
          exact absurd hv (by simp)
      · exact ih o o' heq (List.nodup_cons.mp hnd).2 e he'
    | some v0 =>
      unfold applyDict at heq
      unfold setattr at heq
      by_cases hf : hasField o f0 = true
      · rw [if_pos hf] at heq
        rcases List.mem_cons.mp he with he' | he'
        · constructor
          · intro hnone
            rw [he'] at hnone
            exact absurd hnone (by simp)
          · intro v hv
            rw [he'] at hv ⊢
            have : v = v0 := by simpa using hv.symm
            rw [this, applyDict_frame rest _ o' heq f0 hnotin]
            exact getField_setField_same o f0 v0 hf
        · have hne : e.1 ≠ f0 := by
            intro hcontra
            exact hnotin (hcontra ▸ (List.mem_map_of_mem Prod.fst he'))
          have hrec := ih (setField o f0 v0) o' heq (List.nodup_cons.mp hnd).2 e he'
          constructor
          · intro hnone
            rw [hrec.1 hnone]
            exact getField_setField_other o f0 e.1 v0 hne
          · exact hrec.2
      · rw [if_neg hf] at heq
        exact absurd heq (by simp)

theorem applyDict_error :
    ∀ (es : List (String × Option Val)) (o : Obj),
      (∃ e ∈ es, hasField o e.1 = false ∧ e.2 ≠ none) →
      ∃ f v, (f, some v) ∈ es ∧ hasField o f = false
        ∧ applyDict o es = .error (.invalidSettingKV f v) := by
  intro es
  induction es with
  | nil => intro o hex; simp at hex
  | cons e0 rest ih =>
    intro o hex
    obtain ⟨f0, ov0⟩ := e0
    cases ov0 with
    | none =>
      have hex' : ∃ e ∈ rest, hasField o e.1 = false ∧ e.2 ≠ none := by
        obtain ⟨e, hmem, hbad⟩ := hex
        rcases List.mem_cons.mp hmem with he | he
        · rw [he] at hbad
          exact absurd rfl hbad.2
        · exact ⟨e, he, hbad⟩
      obtain ⟨f, v, hmem, hbad, happly⟩ := ih o hex'
      exact ⟨f, v, List.mem_cons_of_mem _ hmem, hbad, happly⟩
    | some v0 =>
      by_cases hf0 : hasField o f0 = true
      · have hex' : ∃ e ∈ rest, hasField (setField o f0 v0) e.1 = false ∧ e.2 ≠ none := by
          obtain ⟨e, hmem, hbad⟩ := hex
          rcases List.mem_cons.mp hmem with he | he
          · rw [he] at hbad
            rw [hbad.1] at hf0
            exact absurd hf0 (by simp)
          · exact ⟨e, he, by rw [hasField_setField]; exact hbad.1, hbad.2⟩
        obtain ⟨f, v, hmem, hbad, happly⟩ := ih (setField o f0 v0) hex'
        refine ⟨f, v, List.mem_cons_of_mem _ hmem, ?_, ?_⟩
        · rw [← hasField_setField o f0 f v0]
          exact hbad
        · unfold applyDict
          unfold setattr
          rw [if_pos hf0]
          exact happly
      · refine ⟨f0, v0, List.mem_cons_self _ _, by simpa using hf0, ?_⟩
        unfold applyDict
        unfold setattr
        rw [if_neg hf0]

/-! ### Destructuring a successful `customize` call -/

theorem objAtD_concat (h1 : Heap) (o : Obj) : objAtD (h1 ++ [o]) h1.length = o := by
  unfold objAtD
  rw [concat_getElem_last]
  rfl

theorem customize_destruct (fuel : Nat) (h : Heap) (a : Nat) (cs : Override)
    (res : Except CfgError (Heap × Nat))
    (hcust : NomadSettings.customize fuel h a cs = some res) :
    ∃ (o0 : Obj) (tfs : List (String × DTree)) (h1 : Heap) (fvs : List (String × Val)),
      h[a]? = some o0 ∧ valOfFields fuel h o0.fields = some tfs
      ∧ buildFields fuel h tfs = some (h1, fvs)
      ∧ fvs.map Prod.fst = o0.fields.map Prod.fst
      ∧ (truthyOverride cs = true →
          (∃ ro2, applyOverride (Obj.mk fvs) cs = .ok ro2
              ∧ res = .ok (h1 ++ [ro2], h1.length))
          ∨ (∃ e, applyOverride (Obj.mk fvs) cs = .error e ∧ res = .error e))
      ∧ (truthyOverride cs = false → res = .ok (h1 ++ [Obj.mk fvs], h1.length)) := by
  unfold NomadSettings.customize valOfObj at hcust
  cases hobj : h[a]? with
  | none => rw [hobj] at hcust; simp at hcust
  | some o0 =>
    rw [hobj] at hcust
    simp only [Option.some_bind] at hcust
    cases hval : valOfFields fuel h o0.fields with
    | none => rw [hval] at hcust; simp at hcust
    | some tfs =>
      rw [hval] at hcust
      simp only [Option.some_bind] at hcust
      cases hbuild : buildFields fuel h tfs with
      | none => rw [hbuild] at hcust; simp at hcust
      | some hfvs =>
        obtain ⟨h1, fvs⟩ := hfvs
        rw [hbuild] at hcust
        simp only [Option.map_some', Option.some.injEq] at hcust
        have hnames : fvs.map Prod.fst = o0.fields.map Prod.fst := by
          rw [buildFieldsWith_names _ tfs h h1 fvs hbuild,
            valOfFields_names o0.fields fuel h tfs hval]
        refine ⟨o0, tfs, h1, fvs, rfl, hval, hbuild, hnames, ?_, ?_⟩
        · intro htr
          rw [htr] at hcust
          simp only [if_true] at hcust
          cases happ : applyOverride (Obj.mk fvs) cs with
          | ok ro2 =>
            left
            refine ⟨ro2, rfl, ?_⟩
            rw [happ] at hcust
            exact hcust.symm
          | error e =>
            right
            refine ⟨e, rfl, ?_⟩
            rw [happ] at hcust
            exact hcust.symm
        · intro htr
          rw [htr] at hcust
          simp only [Bool.false_eq_true, if_false] at hcust
          exact hcust.symm

/-- C2 (amended): an override that names a field absent from the base's schema
through the settings-object path, or through a mapping entry whose value is
not None, makes `customize` fail with an `Invalid setting` error identifying
an offending field name (and, for the mapping case, the rejected value); the
error is the returned outcome, so no partial result reaches the caller.  (The
original claim also covered None-valued mapping entries, but those are skipped
by the `value is None: continue` branch, see the counterexample.) -/
theorem C2_customize_unknown_field_error :
    ∀ (fuel : Nat) (h : Heap) (a : Nat) (fs : List (String × Val))
      (es : List (String × Option Val)) (res : Except CfgError (Heap × Nat)),
      (NomadSettings.customize fuel h a (.node fs) = some res →
        (∃ fv ∈ fs, fv.1 ∉ topNames h a) →
        ∃ f, f ∉ topNames h a ∧ (∃ v, (f, v) ∈ fs)
          ∧ res = .error (.invalidSettingField f))
      ∧ (NomadSettings.customize fuel h a (.dict es) = some res →
        (∃ e ∈ es, e.1 ∉ topNames h a ∧ e.2 ≠ none) →
        ∃ f v, f ∉ topNames h a ∧ (f, some v) ∈ es
          ∧ res = .error (.invalidSettingKV f v)) := by
  intro fuel h a fs es res
  constructor
  · intro hcust hex
    obtain ⟨o0, tfs, h1, fvs, hobj, hval, hbuild, hnames, htr, -⟩ :=
      customize_destruct fuel h a (.node fs) res hcust
    have htop : topNames h a = o0.fields.map Prod.fst := by
      unfold topNames
      rw [hobj]
      rfl
    have hmemnames : ∀ x, hasField (Obj.mk fvs) x = true ↔ x ∈ topNames h a := by
      intro x
      rw [hasField_iff_names, htop]
      show x ∈ fvs.map Prod.fst ↔ _
      rw [hnames]
    have hex' : ∃ fv ∈ fs, hasField (Obj.mk fvs) fv.1 = false := by
      obtain ⟨fv, hmem, hnot⟩ := hex
      refine ⟨fv, hmem, ?_⟩
      cases hhf : hasField (Obj.mk fvs) fv.1 with
      | false => rfl
      | true => exact absurd ((hmemnames fv.1).mp hhf) hnot
    obtain ⟨f, hv, hbadf, happly⟩ := applyNode_error fs (Obj.mk fvs) hex'
    rcases htr rfl with ⟨ro2, happ2, -⟩ | ⟨e, happ2, hres⟩
    · rw [show applyOverride (Obj.mk fvs) (Override.node fs) = applyNode (Obj.mk fvs) fs
        from rfl, happly] at happ2
      exact absurd happ2 (by simp)
    · rw [show applyOverride (Obj.mk fvs) (Override.node fs) = applyNode (Obj.mk fvs) fs
        from rfl, happly] at happ2
      have he : CfgError.invalidSettingField f = e := by simpa using happ2
      refine ⟨f, ?_, hv, by rw [hres, ← he]⟩
      intro hcontra
      rw [← hmemnames f] at hcontra
      rw [hcontra] at hbadf
      exact absurd hbadf (by simp)
  · intro hcust hex
    obtain ⟨o0, tfs, h1, fvs, hobj, hval, hbuild, hnames, htr, -⟩ :=
      customize_destruct fuel h a (.dict es) res hcust
    have htop : topNames h a = o0.fields.map Prod.fst := by
      unfold topNames
      rw [hobj]
      rfl
    have hmemnames : ∀ x, hasField (Obj.mk fvs) x = true ↔ x ∈ topNames h a := by
      intro x
      rw [hasField_iff_names, htop]
      show x ∈ fvs.map Prod.fst ↔ _
      rw [hnames]
    have hex' : ∃ e ∈ es, hasField (Obj.mk fvs) e.1 = false ∧ e.2 ≠ none := by
      obtain ⟨e, hmem, hnot, hnn⟩ := hex
      refine ⟨e, hmem, ?_, hnn⟩
      cases hhf : hasField (Obj.mk fvs) e.1 with
      | false => rfl
      | true => exact absurd ((hmemnames e.1).mp hhf) hnot
    obtain ⟨f, v, hmem, hbadf, happly⟩ := applyDict_error es (Obj.mk fvs) hex'
    have htruthy : truthyOverride (Override.dict es) = true := by
      obtain ⟨e, hmem', -⟩ := hex'
      unfold truthyOverride
      cases es with
      | nil => simp at hmem'
      | cons x rest => simp
    rcases htr htruthy with ⟨ro2, happ2, -⟩ | ⟨e, happ2, hres⟩
    · rw [show applyOverride (Obj.mk fvs) (Override.dict es) = applyDict (Obj.mk fvs) es
        from rfl, happly] at happ2
      exact absurd happ2 (by simp)
    · rw [show applyOverride (Obj.mk fvs) (Override.dict es) = applyDict (Obj.mk fvs) es
        from rfl, happly] at happ2
      have he : CfgError.invalidSettingKV f v = e := by simpa using happ2
      refine ⟨f, v, ?_, hmem, by rw [hres, ← he]⟩
      intro hcontra
      rw [← hmemnames f] at hcontra
      rw [hcontra] at hbadf
      exact absurd hbadf (by simp)

/-- C2 counterexample: a mapping override whose only entry names a
non-existent field but carries the value None is skipped by the
`if value is None: continue` branch, so `customize` succeeds instead of
failing as the claim demands. -/
theorem C2_counterexample_none_valued_unknown_key :
    NomadSettings.customize 1 [Obj.mk [("x", Val.prim 1)]] 0 (.dict [("bad", none)])
      = some (.ok ([Obj.mk [("x", Val.prim 1)], Obj.mk [("x", Val.prim 1)]], 1))
    ∧ "bad" ∉ topNames [Obj.mk [("x", Val.prim 1)]] 0 :=
  ⟨rfl, by decide⟩

/-- C2 witness: on a base with single field `x`, an object override declaring
field `bad` and a mapping override `{'bad2': 4}` both end in the matching
`Invalid setting` error. -/
theorem C2_customize_unknown_field_error_witness :
    (∃ f, f ∉ topNames [Obj.mk [("x", Val.prim 1)]] 0
      ∧ (∃ v, (f, v) ∈ [("bad", Val.prim 3)])
      ∧ (Except.error (CfgError.invalidSettingField "bad")
          : Except CfgError (Heap × Nat)) = .error (.invalidSettingField f))
    ∧ (∃ f v, f ∉ topNames [Obj.mk [("x", Val.prim 1)]] 0
      ∧ (f, some v) ∈ [("bad2", some (Val.prim 4))]
      ∧ (Except.error (CfgError.invalidSettingKV "bad2" (Val.prim 4))
          : Except CfgError (Heap × Nat)) = .error (.invalidSettingKV f v)) :=
  ⟨(C2_customize_unknown_field_error 1 [Obj.mk [("x", Val.prim 1)]] 0
      [("bad", Val.prim 3)] [("bad2", some (Val.prim 4))]
      (.error (.invalidSettingField "bad"))).1 rfl (by decide),
    (C2_customize_unknown_field_error 1 [Obj.mk [("x", Val.prim 1)]] 0
      [("bad", Val.prim 3)] [("bad2", some (Val.prim 4))]
      (.error (.invalidSettingKV "bad2" (Val.prim 4)))).2 rfl (by decide)⟩

/-- C3: the two override shapes are asymmetric.  A settings-object override
sets every field declared on the override object, defaults included
(`R.f = O.f` for each declared `f`); a mapping override skips None-valued
keys — the result keeps the plain deep copy's value there — and applies
exactly the non-None keys. -/
theorem C3_customize_override_asymmetry :
    ∀ (fuel : Nat) (h : Heap) (a : Nat) (fs : List (String × Val))
      (es : List (String × Option Val)) (h' h₀ : Heap) (r r₀ : Nat),
      ((fs.map Prod.fst).Nodup →
        NomadSettings.customize fuel h a (.node fs) = some (.ok (h', r)) →
        ∀ fv ∈ fs, getField (objAtD h' r) fv.1 = some fv.2)
      ∧ ((es.map Prod.fst).Nodup →
        NomadSettings.customize fuel h a (.dict es) = some (.ok (h', r)) →
        NomadSettings.customize fuel h a (.dict []) = some (.ok (h₀, r₀)) →
        ∀ e ∈ es,
          (e.2 = none → getField (objAtD h' r) e.1 = getField (objAtD h₀ r₀) e.1)
          ∧ (∀ v, e.2 = some v → getField (objAtD h' r) e.1 = some v)) := by
  intro fuel h a fs es h' h₀ r r₀
  constructor
  · intro hnd hcust fv hfv
    obtain ⟨o0, tfs, h1, fvs, hobj, hval, hbuild, hnames, htr, -⟩ :=
      customize_destruct fuel h a (.node fs) _ hcust
    rcases htr rfl with ⟨ro2, happ, hres⟩ | ⟨e, -, hres⟩
    · have h2 : h' = h1 ++ [ro2] ∧ r = h1.length := by simpa using hres
      rw [h2.1, h2.2, objAtD_concat]
      exact applyNode_ok_getField fs (Obj.mk fvs) ro2 happ hnd fv hfv
    · exact absurd hres (by simp)
  · intro hnd hcust hcust0 e he
    obtain ⟨o0, tfs, h1, fvs, hobj, hval, hbuild, hnames, htr, -⟩ :=
      customize_destruct fuel h a (.dict es) _ hcust
    obtain ⟨o0', tfs', h1', fvs', hobj', hval', hbuild', -, -, hfalse⟩ :=
      customize_destruct fuel h a (.dict []) _ hcust0
    have ho0 : o0' = o0 := by
      rw [hobj] at hobj'
      exact (Option.some.inj hobj').symm
    rw [ho0, hval] at hval'
    have htfs : tfs' = tfs := (Option.some.inj hval').symm
    rw [htfs, hbuild] at hbuild'
    have h11 : h1' = h1 ∧ fvs' = fvs := by
      have := Option.some.inj hbuild'
      exact ⟨(congrArg Prod.fst this).symm, (congrArg Prod.snd this).symm⟩
    have hres0 := hfalse rfl
    rw [h11.1, h11.2] at hres0
    have h20 : h₀ = h1 ++ [Obj.mk fvs] ∧ r₀ = h1.length := by simpa using hres0
    have htruthy : truthyOverride (Override.dict es) = true := by
      unfold truthyOverride
      cases es with
      | nil => simp at he
      | cons x rest => simp
    rcases htr htruthy with ⟨ro2, happ, hres⟩ | ⟨e', -, hres⟩
    · have h2 : h' = h1 ++ [ro2] ∧ r = h1.length := by simpa using hres
      rw [h2.1, h2.2, objAtD_concat, h20.1, h20.2, objAtD_concat]
      exact applyDict_ok_getField es (Obj.mk fvs) ro2 happ hnd e he
    · exact absurd hres (by simp)

/-- C3 witness: base `{x:1, y:2}`; the object override `{x:1, y:99}` applies
both of its fields (`y` included, `x` despite equalling the base); the mapping
override `{'x': 5, 'y': None}` applies `x` and keeps the copied `y`. -/
theorem C3_customize_override_asymmetry_witness :
    getField (objAtD [Obj.mk [("x", Val.prim 1), ("y", Val.prim 2)],
        Obj.mk [("x", Val.prim 1), ("y", Val.prim 99)]] 1) "y" = some (Val.prim 99)
    ∧ getField (objAtD [Obj.mk [("x", Val.prim 1), ("y", Val.prim 2)],
        Obj.mk [("x", Val.prim 1), ("y", Val.prim 99)]] 1) "x" = some (Val.prim 1)
    ∧ getField (objAtD [Obj.mk [("x", Val.prim 1), ("y", Val.prim 2)],
        Obj.mk [("x", Val.prim 5), ("y", Val.prim 2)]] 1) "y"
      = getField (objAtD [Obj.mk [("x", Val.prim 1), ("y", Val.prim 2)],
        Obj.mk [("x", Val.prim 1), ("y", Val.prim 2)]] 1) "y"
    ∧ getField (objAtD [Obj.mk [("x", Val.prim 1), ("y", Val.prim 2)],
        Obj.mk [("x", Val.prim 5), ("y", Val.prim 2)]] 1) "x" = some (Val.prim 5) :=
  ⟨(C3_customize_override_asymmetry 1 [Obj.mk [("x", Val.prim 1), ("y", Val.prim 2)]] 0
      [("x", Val.prim 1), ("y", Val.prim 99)] [("x", some (Val.prim 5)), ("y", none)]
      [Obj.mk [("x", Val.prim 1), ("y", Val.prim 2)],
        Obj.mk [("x", Val.prim 1), ("y", Val.prim 99)]]
      [Obj.mk [("x", Val.prim 1), ("y", Val.prim 2)],
        Obj.mk [("x", Val.prim 1), ("y", Val.prim 2)]] 1 1).1
      (by decide) rfl ("y", Val.prim 99) (by decide),
    (C3_customize_override_asymmetry 1 [Obj.mk [("x", Val.prim 1), ("y", Val.prim 2)]] 0
      [("x", Val.prim 1), ("y", Val.prim 99)] [("x", some (Val.prim 5)), ("y", none)]
      [Obj.mk [("x", Val.prim 1), ("y", Val.prim 2)],
        Obj.mk [("x", Val.prim 1), ("y", Val.prim 99)]]
      [Obj.mk [("x", Val.prim 1), ("y", Val.prim 2)],
        Obj.mk [("x", Val.prim 1), ("y", Val.prim 2)]] 1 1).1
      (by decide) rfl ("x", Val.prim 1) (by decide),
    ((C3_customize_override_asymmetry 1 [Obj.mk [("x", Val.prim 1), ("y", Val.prim 2)]] 0
      [("x", Val.prim 1), ("y", Val.prim 99)] [("x", some (Val.prim 5)), ("y", none)]
      [Obj.mk [("x", Val.prim 1), ("y", Val.prim 2)],
        Obj.mk [("x", Val.prim 5), ("y", Val.prim 2)]]
      [Obj.mk [("x", Val.prim 1), ("y", Val.prim 2)],
        Obj.mk [("x", Val.prim 1), ("y", Val.prim 2)]] 1 1).2
      (by decide) rfl rfl ("y", none) (by decide)).1 rfl,
    ((C3_customize_override_asymmetry 1 [Obj.mk [("x", Val.prim 1), ("y", Val.prim 2)]] 0
      [("x", Val.prim 1), ("y", Val.prim 99)] [("x", some (Val.prim 5)), ("y", none)]
      [Obj.mk [("x", Val.prim 1), ("y", Val.prim 2)],
        Obj.mk [("x", Val.prim 5), ("y", Val.prim 2)]]
      [Obj.mk [("x", Val.prim 1), ("y", Val.prim 2)],
        Obj.mk [("x", Val.prim 1), ("y", Val.prim 2)]] 1 1).2
      (by decide) rfl rfl ("x", some (Val.prim 5)) (by decide)).2 (Val.prim 5) rfl⟩

/-- C1 witness: with `include=['a','b']` and `exclude=['b']`, the value `'b'`
is rejected — exclusion wins over inclusion. -/
theorem C1_filter_included_not_excluded_witness :
    OptionsBase.filter ⟨some ["a", "b"], some ["b"]⟩ "b" = false :=
  (C1_filter_included_not_excluded ⟨some ["a", "b"], some ["b"]⟩ "b").2
    ⟨by decide, Or.inl (by decide)⟩

/-- C9 witness: with `include=['*']` and `exclude=['abc.*']`, the candidate
`'abc.def'` is rejected — glob exclusion wins over inclusion. -/
theorem C9_glob_filter_spec_witness :
    OptionsGlob.filter ⟨some ["*"], some ["abc.*"]⟩ "abc.def" = false :=
  (C9_glob_filter_spec.1 ⟨some ["*"], some ["abc.*"]⟩ "abc.def").2
    ⟨by decide, "abc.*", by decide, by decide⟩
